import Mathlib

/-
Verification development for the FakeQuantizeMulFusion graph-rewrite rule
(src/common/transformations/src/transformations/common_optimizations/fq_mul_fusion.cpp).

The IR data model (partial shapes, constant tensors, nodes, consumer edges) and the
matcher callback of the rule are embedded shallowly below.  Definitions translated
from code outside src/ (the constant folder, op::util::get_single_value, the
FakeQuantize reference semantics and its shape inference, replace_node and
copy_runtime_info) carry a doc comment starting with "Modelled from the spec:".
-/

namespace FQMF

/-- Element types of IR tensors (spec section 3, data model). -/
inductive ElemType
  | f32
  | f16
  | i64
  | u8
deriving DecidableEq, Repr

/-- Operation kind tags of IR nodes; the kinds named by fq_mul_fusion.cpp plus
generic producers/consumers. -/
inductive OpKind
  | FakeQuantize
  | Multiply
  | Constant
  | Convolution
  | GroupConvolution
  | Reshape
  | Parameter
  | Result
deriving DecidableEq, Repr

/-- Broadcast policy attribute (op::AutoBroadcastType); the callback only
distinguishes NUMPY from the rest (line 133 of the source). -/
inductive AutoBroadcastType
  | NONE
  | NUMPY
  | PDPD
deriving DecidableEq, Repr

/-- One axis of a partial shape: a statically known extent or a dynamic one. -/
inductive Dim
  | static (n : Nat)
  | dyn
deriving DecidableEq, Repr

/-- Partial shape of a node output: unknown rank, or a known list of axes. -/
inductive PartialShape
  | dynRank
  | ranked (dims : List Dim)
deriving DecidableEq, Repr

/-- PartialShape::is_dynamic: unknown rank or at least one unknown axis. -/
def PartialShape.isDynamic : PartialShape → Bool
  | .dynRank => true
  | .ranked ds => ds.any (fun d => match d with | .dyn => true | .static _ => false)

/-- Extraction of a fully static dimension list, when every axis is known. -/
def dimsToStatic : List Dim → Option (List Nat)
  | [] => some []
  | Dim.static n :: ds => (dimsToStatic ds).map (fun l => n :: l)
  | Dim.dyn :: _ => none

/-- Shape::get_shape on a partial shape: defined exactly when fully static. -/
def PartialShape.toStatic : PartialShape → Option (List Nat)
  | .dynRank => none
  | .ranked ds => dimsToStatic ds

/-- The partial shape of a fully static shape. -/
def staticPS (s : List Nat) : PartialShape := PartialShape.ranked (s.map Dim.static)

/-- A constant tensor: element type, static shape and row-major flat values. -/
structure TensorValue where
  et : ElemType
  shape : List Nat
  values : List ℚ
deriving DecidableEq, Repr

/-- ngraph::shape_size: the number of elements of a static shape. -/
def shapeSize (s : List Nat) : Nat := s.foldr (fun d acc => d * acc) 1

/-- Left-pad a shape with size-1 axes up to rank r (numpy axis alignment). -/
def padOnes (s : List Nat) (r : Nat) : List Nat := List.replicate (r - s.length) 1 ++ s

/-- Numpy broadcast of two static shapes (align trailing axes, max per axis). -/
def bshape (a b : List Nat) : List Nat :=
  List.zipWith max (padOnes a (max a.length b.length)) (padOnes b (max a.length b.length))

/-- Project a multi-index of the output onto a (padded) input shape: axes of
extent 1 are broadcast, so their coordinate collapses to 0. -/
def bIndex (dims ix : List Nat) : List Nat :=
  List.zipWith (fun d i => if d = 1 then 0 else i) dims ix

/-- Row-major flattening of a multi-index for the given dimensions. -/
def flatIndex (dims ix : List Nat) : Nat :=
  (List.zip dims ix).foldl (fun acc p => acc * p.1 + p.2) 0

/-- Read one element of a tensor under numpy broadcasting against an ambient
rank r: pad the shape, collapse broadcast axes, read the flat value. -/
def tGet (t : TensorValue) (r : Nat) (ix : List Nat) : ℚ :=
  t.values.getD (flatIndex (padOnes t.shape r) (bIndex (padOnes t.shape r) ix)) 0

/-- All chunks i :: ix for i below n, tails drawn from the given list; ascending
in i, so chunk i starts at offset i * tails.length. -/
def crossRange : Nat → List (List Nat) → List (List Nat)
  | 0, _ => []
  | n + 1, tails => crossRange n tails ++ tails.map (fun ix => n :: ix)

/-- Row-major enumeration of every multi-index of a static shape. -/
def allIndices : List Nat → List (List Nat)
  | [] => [[]]
  | d :: ds => crossRange d (allIndices ds)

/-- Elementwise product of two constant tensors under numpy broadcasting; this
is what constant-folding a Multiply of two constants computes. -/
def bmulTensors (a b : TensorValue) : TensorValue :=
  ⟨a.et, bshape a.shape b.shape,
    (allIndices (bshape a.shape b.shape)).map (fun ix =>
      tGet a (bshape a.shape b.shape).length ix * tGet b (bshape a.shape b.shape).length ix)⟩

/-- Whether a static shape broadcasts into the ambient output shape S. -/
def broadcastsTo (sh S : List Nat) : Bool :=
  decide (sh.length ≤ S.length) &&
    (List.zip (padOnes sh S.length) S).all (fun p => p.1 == 1 || p.1 == p.2)

/-- Every axis has positive extent. -/
def allPos (s : List Nat) : Bool := s.all (fun d => decide (0 < d))

/-- Modelled from the spec: op::util::get_single_value (transformations/utils/utils.cpp,
outside src/) proves a constant is semantically a single value: it succeeds exactly
when the value vector is nonempty and all of its entries are equal, returning that
value ("all elements equal", spec section 4.2 step 1). -/
def get_single_value (t : TensorValue) : Option ℚ :=
  match t.values with
  | [] => none
  | v :: rest => if rest.all (fun x => decide (x = v)) then some v else none

/-- Modelled from the spec: the scalar semantics of the quantization operation
(the FakeQuantize reference implementation lives outside src/). The spec defines
it by a data input, two calibration-range inputs and two output-range bounds: a
value at or below the calibration range maps to the low output bound, above it to
the high bound, and inside it to a rounded fraction of [out_low, out_high] with
the given number of levels. -/
def fakeQuantize (levels : Nat) (x il ih ol oh : ℚ) : ℚ :=
  if x ≤ min il ih then ol
  else if max il ih < x then oh
  else ((round ((x - il) / (ih - il) * ((levels : ℚ) - 1)) : ℤ) : ℚ) / ((levels : ℚ) - 1)
        * (oh - ol) + ol

/-- An IR operation node (spec section 3): kind, friendly name, metadata bag,
ordered input references (producer node ids), inferred output partial shape,
broadcast policy attribute, and the embedded tensor for Constant nodes. -/
structure Node where
  kind : OpKind
  name : String
  rtInfo : List String
  inputs : List Nat
  outShape : PartialShape
  autoBroadcast : AutoBroadcastType
  constValue : Option TensorValue
deriving DecidableEq, Repr

/-- The graph: an association list from node id to node. -/
abbrev Graph := List (Nat × Node)

/-- Node lookup by id (first entry wins). -/
def gfind : Graph → Nat → Option Node
  | [], _ => none
  | p :: ps, i => if p.1 = i then some p.2 else gfind ps i

/-- Node::get_users: the ids of the nodes that read output of node i. -/
def users : Graph → Nat → List Nat
  | [], _ => []
  | p :: ps, i => if i ∈ p.2.inputs then p.1 :: users ps i else users ps i

/-- A node id strictly larger than every id in the graph. -/
def freshId (g : Graph) : Nat := (g.map Prod.fst).foldr max 0 + 1

/-- Modelled from the spec: metadata merging of copy_runtime_info (ngraph core,
outside src/) per section 4.3: source keys are merged into the destination bag
without dropping keys already present. -/
def mergeRt (dst src : List String) : List String :=
  dst ++ src.filter (fun k => decide (k ∉ dst))

/-- The kind test of lines 83-84: Convolution or GroupConvolution. -/
def isConvKind : OpKind → Bool
  | OpKind.Convolution => true
  | OpKind.GroupConvolution => true
  | _ => false

/-- One step of the std::any_of predicate over fq users. -/
def isConvUser (g : Graph) (uid : Nat) : Bool :=
  match gfind g uid with
  | some n => isConvKind n.kind
  | none => false

/-- Lines 80-85: whether any user of the quantize node is a convolution. -/
def fqOutputIsConv (g : Graph) (i : Nat) : Bool := (users g i).any (isConvUser g)

/-- The binding map produced by a successful match: the ids bound to data_p,
fq_output_low_p, fq_output_high_p, fq_node_p, mul_constant_p and mul_node_p. -/
structure Match where
  data : Nat
  outLow : Nat
  outHigh : Nat
  fq : Nat
  mulConst : Nat
  mul : Nat
deriving DecidableEq, Repr

/-- What the pattern of lines 42-52 guarantees structurally about the bound
nodes, minus the consumer-count predicates: the quantize node is a FakeQuantize
whose input 0 is the bound data and inputs 3, 4 are the bound range bounds; the
multiply is a Multiply over the quantize node and a Constant carrying a tensor. -/
def matchBound (g : Graph) (m : Match) (fqN mulN mcN dataN : Node)
    (t : TensorValue) : Prop :=
  gfind g m.fq = some fqN ∧ fqN.kind = OpKind.FakeQuantize ∧
  fqN.inputs.length = 5 ∧ fqN.inputs[0]? = some m.data ∧
  fqN.inputs[3]? = some m.outLow ∧ fqN.inputs[4]? = some m.outHigh ∧
  gfind g m.mul = some mulN ∧ mulN.kind = OpKind.Multiply ∧
  mulN.inputs = [m.fq, m.mulConst] ∧
  gfind g m.mulConst = some mcN ∧ mcN.kind = OpKind.Constant ∧
  mcN.constValue = some t ∧
  gfind g m.data = some dataN

/-- The full match precondition, adding the consumers_count(1) predicate on the
quantize node (its only consumer edge is input 0 of the matched Multiply) and
well-formedness of the id map. -/
def matchPre (g : Graph) (m : Match) (fqN mulN mcN dataN : Node)
    (t : TensorValue) : Prop :=
  matchBound g m fqN mulN mcN dataN t ∧
  (g.map Prod.fst).Nodup ∧
  (∀ p ∈ g, m.fq ∈ p.2.inputs → p.1 = m.mul)

/-- The scale expression held in the callback's mul_constant variable: the
matched Constant itself, the collapsed 1-element Constant built on line 74, or
the Reshape wrapper built on lines 97-100.  Each carries the tensor the
expression evaluates to. -/
inductive ScaleRepr
  | original (t : TensorValue)
  | collapsed (t : TensorValue)
  | reshaped (t : TensorValue)
deriving DecidableEq, Repr

/-- The tensor a scale expression evaluates to. -/
def scaleTensor : ScaleRepr → TensorValue
  | ScaleRepr.original t => t
  | ScaleRepr.collapsed t => t
  | ScaleRepr.reshaped t => t

/-- Lines 63-77: if the scale constant is not single-element by shape, try to
prove all of its elements equal and collapse it to a Shape{1} constant of the
same element type. -/
def normalizeScaleRepr (t : TensorValue) : ScaleRepr :=
  if shapeSize t.shape = 1 then ScaleRepr.original t
  else
    match get_single_value t with
    | some v => ScaleRepr.collapsed ⟨t.et, [1], [v]⟩
    | none => ScaleRepr.original t

/-- Line 94 computes `rank - mul_constant_shape.size()` with int64_t minus
size_t, so in C++ the difference is taken in uint64_t arithmetic. -/
def u64sub (a b : Nat) : Nat := (((a : Int) - (b : Int)) % ((2 : Int) ^ 64)).toNat

/-- Lines 93-101: when the scale stays multi-valued, left-pad its shape with
size-1 axes up to the data rank and wrap it in a Reshape node. -/
def reshapeScale (rank : Nat) (s : ScaleRepr) : ScaleRepr :=
  if 0 < u64sub rank (scaleTensor s).shape.length then
    ScaleRepr.reshaped ⟨(scaleTensor s).et,
      List.replicate (u64sub rank (scaleTensor s).shape.length) 1 ++ (scaleTensor s).shape,
      (scaleTensor s).values⟩
  else s

/-- The adjusted output range produced by get_adjusted_output_range: either the
folded Constant (line 109) or the residual runtime Multiply over the original
range-bound node, carrying the metadata copied on line 106. -/
inductive RangeNode
  | folded (t : TensorValue)
  | multiplyOf (rangeId : Nat) (rt : List String)
deriving DecidableEq, Repr

/-- Lines 104-111.  Modelled from the spec: get_constant_from_source (the
constant folder, ngraph/validation_util, outside src/) evaluates the new
Multiply to a Constant exactly when its range-bound input is itself a constant
(the scale side is always constant, being the matched Constant, its collapsed
form, or a Reshape of it); the folded value is the broadcast elementwise
product.  When folding fails the runtime Multiply is kept, carrying the
metadata copied from the range-bound node (copy_runtime_info, line 106); the
folded Constant is a fresh node and carries none. -/
def get_adjusted_output_range (g : Graph) (s : ScaleRepr) (rangeId : Nat) : RangeNode :=
  match gfind g rangeId with
  | some n =>
    match n.constValue with
    | some t =>
      if n.kind = OpKind.Constant then RangeNode.folded (bmulTensors t (scaleTensor s))
      else RangeNode.multiplyOf rangeId n.rtInfo
    | none => RangeNode.multiplyOf rangeId n.rtInfo
  | none => RangeNode.multiplyOf rangeId []

/-- Modelled from the spec: shape inference of the FakeQuantize operation
(validate_and_infer_types, outside src/) assigns the data input's partial shape
to the output; the source comment on lines 124-128 records that this inference
is what makes the post-construction shape guard necessary under NUMPY
broadcast. -/
def fqInferOutputShape (dataShape : PartialShape) : PartialShape := dataShape

/-- The replacement quantize node built on lines 113-117: same data and
calibration inputs as the original, adjusted range bounds, the original
broadcast policy attribute, and the inferred output shape. -/
structure NewFQ where
  scale : ScaleRepr
  adjLow : RangeNode
  adjHigh : RangeNode
  autoBroadcast : AutoBroadcastType
  outShape : PartialShape
deriving DecidableEq, Repr

/-- Construction of the replacement quantize node from the bound values. -/
def mkNewFQ (g : Graph) (m : Match) (fqN dataN : Node) (s : ScaleRepr) : NewFQ :=
  { scale := s
    adjLow := get_adjusted_output_range g s m.outLow
    adjHigh := get_adjusted_output_range g s m.outHigh
    autoBroadcast := fqN.autoBroadcast
    outShape := fqInferOutputShape dataN.outShape }

/-- The callback's decision on a match: reject (return false, graph untouched)
or commit the replacement.  The flag records whether transformation_callback
was consulted on the way (line 119 short-circuits it for constant data). -/
inductive Outcome
  | reject (hookConsulted : Bool)
  | commit (nf : NewFQ) (hookConsulted : Bool)
deriving DecidableEq, Repr

/-- Whether an outcome commits the rewrite. -/
def Outcome.isCommit : Outcome → Bool
  | Outcome.commit _ _ => true
  | Outcome.reject _ => false

/-- The broadcast policy and inferred output shape of a committed replacement. -/
def Outcome.nfData : Outcome → Option (AutoBroadcastType × PartialShape)
  | Outcome.commit nf _ => some (nf.autoBroadcast, nf.outShape)
  | Outcome.reject _ => none

/-- Lines 129-141: under NUMPY broadcast policy, reject when either the
replacement's output shape or the Multiply's output shape is not fully known,
or when both are known but different. -/
def fqShapeGuard (mulN : Node) (nf : NewFQ) (hc : Bool) : Outcome :=
  if nf.autoBroadcast = AutoBroadcastType.NUMPY then
    if nf.outShape.isDynamic || mulN.outShape.isDynamic then Outcome.reject hc
    else if nf.outShape.toStatic ≠ mulN.outShape.toStatic then Outcome.reject hc
    else Outcome.commit nf hc
  else Outcome.commit nf hc

/-- Lines 113-141: build the replacement, consult the acceptance hook unless
the data input is a Constant (weights quantization), then run the shape
guard. -/
def fqTail (tcb : NewFQ → Bool) (g : Graph) (m : Match) (fqN mulN dataN : Node)
    (s : ScaleRepr) : Outcome :=
  if ¬ dataN.kind = OpKind.Constant ∧ tcb (mkNewFQ g m fqN dataN s) = true then
    Outcome.reject true
  else fqShapeGuard mulN (mkNewFQ g m fqN dataN s) (decide (¬ dataN.kind = OpKind.Constant))

/-- Lines 79-102: guards and axis alignment for a genuinely multi-valued
scale, then the common tail. -/
def fqStage2 (tcb : NewFQ → Bool) (g : Graph) (m : Match) (fqN mulN dataN : Node)
    (s : ScaleRepr) : Outcome :=
  if shapeSize (scaleTensor s).shape = 1 then fqTail tcb g m fqN mulN dataN s
  else if fqOutputIsConv g m.fq then Outcome.reject false
  else
    match dataN.outShape with
    | PartialShape.dynRank => Outcome.reject false
    | PartialShape.ranked dims => fqTail tcb g m fqN mulN dataN (reshapeScale dims.length s)

/-- The matcher callback of lines 54-149 as a decision function: bind the
pattern map, normalize the scale, run the guards, build the replacement, and
decide reject or commit. -/
def fqMulCallback (tcb : NewFQ → Bool) (g : Graph) (m : Match) : Outcome :=
  match gfind g m.fq, gfind g m.mul, gfind g m.mulConst, gfind g m.data with
  | some fqN, some mulN, some mcN, some dataN =>
    (match mcN.constValue with
     | some t => fqStage2 tcb g m fqN mulN dataN (normalizeScaleRepr t)
     | none => Outcome.reject false)
  | _, _, _, _ => Outcome.reject false

/-- A fresh Constant node wrapping a tensor. -/
def constNode (t : TensorValue) : Node :=
  ⟨OpKind.Constant, "", [], [], staticPS t.shape, AutoBroadcastType.NONE, some t⟩

/-- Numpy broadcast of a partial shape with a static shape, for the inferred
output shape of a residual runtime Multiply. -/
def pbroadcastDim (d : Dim) (n : Nat) : Dim :=
  match d with
  | Dim.static x => Dim.static (max x n)
  | Dim.dyn => if n ≤ 1 then Dim.dyn else Dim.static n

/-- Numpy broadcast of a ranked partial shape against a static shape. -/
def pbroadcast (p : PartialShape) (s : List Nat) : PartialShape :=
  match p with
  | PartialShape.dynRank => PartialShape.dynRank
  | PartialShape.ranked ds =>
      PartialShape.ranked (List.zipWith pbroadcastDim
        (List.replicate (max ds.length s.length - ds.length) (Dim.static 1) ++ ds)
        (padOnes s (max ds.length s.length)))

/-- The i64 Constant holding the padded scale shape (line 99). -/
def shapeConstNode (s : List Nat) : Node :=
  constNode ⟨ElemType.i64, [s.length], s.map (fun n => (n : ℚ))⟩

/-- The Reshape node wrapping the original scale constant (lines 97-100). -/
def reshapeNode (srcId shapeId : Nat) (t : TensorValue) : Node :=
  ⟨OpKind.Reshape, "", [], [srcId, shapeId], staticPS t.shape,
    AutoBroadcastType.NONE, none⟩

/-- Materialize an adjusted range as a graph node. -/
def rangeNodeOf (g : Graph) (scaleRef : Nat) (scaleShape : List Nat) : RangeNode → Node
  | RangeNode.folded t => constNode t
  | RangeNode.multiplyOf rid rt =>
      ⟨OpKind.Multiply, "", rt, [rid, scaleRef],
        pbroadcast (((gfind g rid).map Node.outShape).getD PartialShape.dynRank) scaleShape,
        AutoBroadcastType.NUMPY, none⟩

/-- Modelled from the spec: the commit phase, lines 143-146.  replace_node
redirects every consumer edge of the Multiply to the replacement quantize node
(spec section 4.3); set_friendly_name copies the Multiply's friendly name onto
it; copy_runtime_info merges the metadata bags of the original quantize and
Multiply nodes onto it.  The nodes built during the callback (scale constant or
reshape, adjusted ranges, replacement quantize) join the graph under fresh
ids. -/
def commitGraph (g : Graph) (m : Match) (nf : NewFQ) : Graph :=
  (g.map (fun p => (p.1,
      { p.2 with inputs := p.2.inputs.map (fun j => if j = m.mul then freshId g + 4 else j) })))
  ++ (match nf.scale with
      | ScaleRepr.original _ => []
      | ScaleRepr.collapsed t => [(freshId g + 1, constNode t)]
      | ScaleRepr.reshaped t =>
          [(freshId g, shapeConstNode t.shape),
           (freshId g + 1, reshapeNode m.mulConst (freshId g) t)])
  ++ [(freshId g + 2, rangeNodeOf g
        (match nf.scale with | ScaleRepr.original _ => m.mulConst | _ => freshId g + 1)
        (scaleTensor nf.scale).shape nf.adjLow),
      (freshId g + 3, rangeNodeOf g
        (match nf.scale with | ScaleRepr.original _ => m.mulConst | _ => freshId g + 1)
        (scaleTensor nf.scale).shape nf.adjHigh),
      (freshId g + 4,
        ⟨OpKind.FakeQuantize,
          (((gfind g m.mul).map Node.name).getD ""),
          mergeRt (((gfind g m.fq).map Node.rtInfo).getD [])
                  (((gfind g m.mul).map Node.rtInfo).getD []),
          ((((gfind g m.fq).map Node.inputs).getD []).take 3)
            ++ [freshId g + 2, freshId g + 3],
          nf.outShape, nf.autoBroadcast, none⟩)]

/-- What one invocation of the registered callback returns and leaves behind:
the boolean handed to the pass manager, the graph after the invocation, and
whether transformation_callback was consulted. -/
structure CallbackResult where
  accepted : Bool
  graph : Graph
  hookConsulted : Bool
deriving Repr

/-- One invocation of the matcher callback on a match: a rejected rewrite
leaves the graph exactly as it was; a committed one applies the substitution. -/
def runCallback (tcb : NewFQ → Bool) (g : Graph) (m : Match) : CallbackResult :=
  match fqMulCallback tcb g m with
  | Outcome.reject hc => ⟨false, g, hc⟩
  | Outcome.commit nf hc => ⟨true, commitGraph g m nf, hc⟩

instance (g : Graph) (m : Match) (fqN mulN mcN dataN : Node) (t : TensorValue) :
    Decidable (matchBound g m fqN mulN mcN dataN t) := by
  unfold matchBound; infer_instance

instance (g : Graph) (m : Match) (fqN mulN mcN dataN : Node) (t : TensorValue) :
    Decidable (matchPre g m fqN mulN mcN dataN t) := by
  unfold matchPre; infer_instance

/-- An acceptance hook that never vetoes. -/
def tcbF : NewFQ → Bool := fun _ => false

/-- An acceptance hook that always vetoes. -/
def tcbT : NewFQ → Bool := fun _ => true

/-- Concrete nodes for the executable scenarios below (spec section 8 style). -/
def wData : Node :=
  ⟨OpKind.Constant, "d", [], [], staticPS [2], AutoBroadcastType.NONE,
    some ⟨ElemType.f32, [2], [5, 7]⟩⟩

def wInLow : Node :=
  ⟨OpKind.Constant, "il", [], [], staticPS [1], AutoBroadcastType.NONE,
    some ⟨ElemType.f32, [1], [0]⟩⟩

def wInHigh : Node :=
  ⟨OpKind.Constant, "ih", [], [], staticPS [1], AutoBroadcastType.NONE,
    some ⟨ElemType.f32, [1], [10]⟩⟩

def wOutLow : Node :=
  ⟨OpKind.Constant, "ol", ["rtOL"], [], staticPS [1], AutoBroadcastType.NONE,
    some ⟨ElemType.f32, [1], [0]⟩⟩

def wOutHigh : Node :=
  ⟨OpKind.Constant, "oh", [], [], staticPS [1], AutoBroadcastType.NONE,
    some ⟨ElemType.f32, [1], [1]⟩⟩

def wFq : Node :=
  ⟨OpKind.FakeQuantize, "fq", ["rtF"], [0, 1, 2, 3, 4], staticPS [2],
    AutoBroadcastType.NUMPY, none⟩

def wScale : Node :=
  ⟨OpKind.Constant, "c", [], [], staticPS [1], AutoBroadcastType.NONE,
    some ⟨ElemType.f32, [1], [2]⟩⟩

def wMul : Node :=
  ⟨OpKind.Multiply, "mul", ["rtM"], [5, 6], staticPS [2], AutoBroadcastType.NUMPY, none⟩

def wRes : Node :=
  ⟨OpKind.Result, "r", [], [7], staticPS [2], AutoBroadcastType.NONE, none⟩

/-- A graph on which the rewrite is accepted: FakeQuantize (id 5) feeding the
matched Multiply (id 7) by a scalar constant (id 6), one downstream Result. -/
def gAcc : Graph :=
  [(0, wData), (1, wInLow), (2, wInHigh), (3, wOutLow), (4, wOutHigh),
   (5, wFq), (6, wScale), (7, wMul), (8, wRes)]

/-- The binding map the pattern produces on gAcc. -/
def mW : Match := ⟨0, 3, 4, 5, 6, 7⟩

/-- The scale tensor of gAcc. -/
def wScaleT : TensorValue := ⟨ElemType.f32, [1], [2]⟩

/-- Counterexample graph for the strict-broadcast reading of the shape guard:
identical to gAcc except that the quantize node uses the strict (non-numpy)
policy and the Multiply's recorded output shape differs from the data shape. -/
def cxFq : Node :=
  ⟨OpKind.FakeQuantize, "fq", ["rtF"], [0, 1, 2, 3, 4], staticPS [2],
    AutoBroadcastType.NONE, none⟩

def cxMul : Node :=
  ⟨OpKind.Multiply, "mul", ["rtM"], [5, 6], staticPS [3], AutoBroadcastType.NONE, none⟩

def gCex : Graph :=
  [(0, wData), (1, wInLow), (2, wInHigh), (3, wOutLow), (4, wOutHigh),
   (5, cxFq), (6, wScale), (7, cxMul), (8, wRes)]

/-- Witness graph for the amended NUMPY shape guard: numpy policy and a
Multiply output shape differing from the inferred replacement shape. -/
def a1Mul : Node :=
  ⟨OpKind.Multiply, "mul", ["rtM"], [5, 6], staticPS [3], AutoBroadcastType.NUMPY, none⟩

def gNumpyBad : Graph :=
  [(0, wData), (1, wInLow), (2, wInHigh), (3, wOutLow), (4, wOutHigh),
   (5, wFq), (6, wScale), (7, a1Mul), (8, wRes)]

/-- A genuinely multi-valued scale constant (two distinct values). -/
def wScaleMulti : Node :=
  ⟨OpKind.Constant, "c", [], [], staticPS [2], AutoBroadcastType.NONE,
    some ⟨ElemType.f32, [2], [2, 3]⟩⟩

/-- The tensor of wScaleMulti. -/
def wScaleMultiT : TensorValue := ⟨ElemType.f32, [2], [2, 3]⟩

/-- A Convolution consuming the quantize node's output. -/
def wConv : Node :=
  ⟨OpKind.Convolution, "conv", [], [5], staticPS [2], AutoBroadcastType.NONE, none⟩

/-- Witness graph for the convolution guard: multi-valued scale and a
Convolution among the quantize node's users. -/
def gConv : Graph :=
  [(0, wData), (1, wInLow), (2, wInHigh), (3, wOutLow), (4, wOutHigh),
   (5, wFq), (6, wScaleMulti), (7, wMul), (8, wRes), (9, wConv)]

/-- A data node of unknown rank. -/
def wDataDyn : Node :=
  ⟨OpKind.Parameter, "d", [], [], PartialShape.dynRank, AutoBroadcastType.NONE, none⟩

/-- Witness graph for the unknown-rank guard: multi-valued scale, dynamic-rank
data, no convolution consumer. -/
def gDynRank : Graph :=
  [(0, wDataDyn), (1, wInLow), (2, wInHigh), (3, wOutLow), (4, wOutHigh),
   (5, wFq), (6, wScaleMulti), (7, wMul), (8, wRes)]

/-- A non-constant data node with a static shape. -/
def wDataParam : Node :=
  ⟨OpKind.Parameter, "d", [], [], staticPS [2], AutoBroadcastType.NONE, none⟩

/-- Witness graph for the acceptance hook: the data input is not a Constant. -/
def gHook : Graph :=
  [(0, wDataParam), (1, wInLow), (2, wInHigh), (3, wOutLow), (4, wOutHigh),
   (5, wFq), (6, wScale), (7, wMul), (8, wRes)]

/-- A tensor of non-trivial shape whose elements are all equal. -/
def wAllEq : TensorValue := ⟨ElemType.f32, [2], [3, 3]⟩

/-- The range tensors of gAcc. -/
def wOutLowT : TensorValue := ⟨ElemType.f32, [1], [0]⟩

def wOutHighT : TensorValue := ⟨ElemType.f32, [1], [1]⟩

theorem le_foldr_max {x : Nat} {l : List Nat} (h : x ∈ l) : x ≤ l.foldr max 0 := by
  induction l with
  | nil => cases h
  | cons a l ih =>
    rcases List.mem_cons.mp h with rfl | h2
    · exact Nat.le_max_left _ _
    · exact le_trans (ih h2) (Nat.le_max_right _ _)

theorem mem_lt_freshId {g : Graph} {p : Nat × Node} (h : p ∈ g) : p.1 < freshId g := by
  have h1 : p.1 ∈ g.map Prod.fst := List.mem_map_of_mem _ h
  have h2 := le_foldr_max h1
  unfold freshId
  omega

theorem gfind_append_right {a b : Graph} {i : Nat} (h : ∀ p ∈ a, p.1 ≠ i) :
    gfind (a ++ b) i = gfind b i := by
  induction a with
  | nil => rfl
  | cons p ps ih =>
    rw [List.cons_append, gfind, if_neg (h p (List.mem_cons_self p ps))]
    exact ih (fun q hq => h q (List.mem_cons_of_mem _ hq))

theorem gfind_mem {g : Graph} {i : Nat} {n : Node} (h : gfind g i = some n) : (i, n) ∈ g := by
  induction g with
  | nil => cases h
  | cons p ps ih =>
    rw [gfind] at h
    by_cases hp : p.1 = i
    · rw [if_pos hp] at h
      injection h with h2
      have hpn : p = (i, n) := Prod.ext hp h2
      rw [← hpn]
      exact List.mem_cons_self p ps
    · rw [if_neg hp] at h
      exact List.mem_cons_of_mem _ (ih h)

theorem users_nil_of {g : Graph} {i : Nat} (h : ∀ p ∈ g, i ∉ p.2.inputs) :
    users g i = [] := by
  induction g with
  | nil => rfl
  | cons p ps ih =>
    rw [users, if_neg (h p (List.mem_cons_self p ps))]
    exact ih (fun q hq => h q (List.mem_cons_of_mem _ hq))

theorem users_single {g : Graph} {fqId mulId : Nat} {mulN : Node}
    (hnd : (g.map Prod.fst).Nodup) (hmem : (mulId, mulN) ∈ g) (hin : fqId ∈ mulN.inputs)
    (honly : ∀ p ∈ g, fqId ∈ p.2.inputs → p.1 = mulId) :
    users g fqId = [mulId] := by
  induction g with
  | nil => cases hmem
  | cons p ps ih =>
    rw [List.map_cons, List.nodup_cons] at hnd
    rcases List.mem_cons.mp hmem with rfl | hmem2
    · rw [users, if_pos hin]
      have hrest : users ps fqId = [] := by
        apply users_nil_of
        intro q hq hf
        have hq1 : q.1 = mulId := honly q (List.mem_cons_of_mem _ hq) hf
        have hq2 : q.1 ∈ ps.map Prod.fst := List.mem_map_of_mem Prod.fst hq
        rw [hq1] at hq2
        exact absurd hq2 hnd.1
      rw [hrest]
    · have hp1 : p.1 ≠ mulId := by
        intro he
        exact hnd.1 (he ▸ List.mem_map_of_mem Prod.fst hmem2)
      have hpnot : fqId ∉ p.2.inputs :=
        fun hf => hp1 (honly p (List.mem_cons_self p ps) hf)
      rw [users, if_neg hpnot]
      exact ih hnd.2 hmem2 (fun q hq hf => honly q (List.mem_cons_of_mem _ hq) hf)

theorem mem_mergeRt_left {k : String} {a b : List String} (h : k ∈ a) : k ∈ mergeRt a b :=
  List.mem_append_left _ h

theorem mem_mergeRt_right {k : String} {a b : List String} (h : k ∈ b) : k ∈ mergeRt a b := by
  by_cases hk : k ∈ a
  · exact List.mem_append_left _ hk
  · exact List.mem_append_right _ (List.mem_filter.mpr ⟨h, by simpa using hk⟩)

theorem fqShapeGuard_commit_inv {mulN : Node} {nf nf2 : NewFQ} {hc hc2 : Bool}
    (h : fqShapeGuard mulN nf hc = Outcome.commit nf2 hc2) :
    nf2 = nf ∧ hc2 = hc ∧
    (nf.autoBroadcast = AutoBroadcastType.NUMPY →
      nf.outShape.isDynamic = false ∧ mulN.outShape.isDynamic = false ∧
      nf.outShape.toStatic = mulN.outShape.toStatic) := by
  unfold fqShapeGuard at h
  split at h
  · next hb =>
    split at h
    · cases h
    · next hdyn =>
      split at h
      · cases h
      · next hstat =>
        injection h with h1 h2
        refine ⟨h1.symm, h2.symm, fun _ => ?_⟩
        rw [Bool.or_eq_true, not_or] at hdyn
        push_neg at hstat
        exact ⟨Bool.not_eq_true _ ▸ hdyn.1, Bool.not_eq_true _ ▸ hdyn.2, hstat⟩
  · next hb =>
    injection h with h1 h2
    exact ⟨h1.symm, h2.symm, fun hn => absurd hn hb⟩

theorem fqTail_commit_inv {tcb : NewFQ → Bool} {g : Graph} {m : Match}
    {fqN mulN dataN : Node} {s : ScaleRepr} {nf : NewFQ} {hc : Bool}
    (h : fqTail tcb g m fqN mulN dataN s = Outcome.commit nf hc) :
    nf = mkNewFQ g m fqN dataN s ∧ hc = decide (¬ dataN.kind = OpKind.Constant) ∧
    (¬ dataN.kind = OpKind.Constant → tcb nf = false) ∧
    (nf.autoBroadcast = AutoBroadcastType.NUMPY →
      nf.outShape.isDynamic = false ∧ mulN.outShape.isDynamic = false ∧
      nf.outShape.toStatic = mulN.outShape.toStatic) := by
  unfold fqTail at h
  split at h
  · cases h
  · next hcond =>
    obtain ⟨h1, h2, h3⟩ := fqShapeGuard_commit_inv h
    refine ⟨h1, h2, fun hnotc => ?_, h1 ▸ h3⟩
    rw [not_and] at hcond
    have := hcond hnotc
    rw [h1]
    exact Bool.not_eq_true _ ▸ this

theorem fqStage2_commit_inv {tcb : NewFQ → Bool} {g : Graph} {m : Match}
    {fqN mulN dataN : Node} {s : ScaleRepr} {nf : NewFQ} {hc : Bool}
    (h : fqStage2 tcb g m fqN mulN dataN s = Outcome.commit nf hc) :
    ∃ s2, fqTail tcb g m fqN mulN dataN s2 = Outcome.commit nf hc := by
  unfold fqStage2 at h
  split at h
  · exact ⟨s, h⟩
  · split at h
    · cases h
    · split at h
      · cases h
      · next dims => exact ⟨_, h⟩

theorem fqMulCallback_commit_inv {tcb : NewFQ → Bool} {g : Graph} {m : Match}
    {nf : NewFQ} {hc : Bool}
    (h : fqMulCallback tcb g m = Outcome.commit nf hc) :
    ∃ fqN mulN mcN dataN t s2,
      gfind g m.fq = some fqN ∧ gfind g m.mul = some mulN ∧
      gfind g m.mulConst = some mcN ∧ gfind g m.data = some dataN ∧
      mcN.constValue = some t ∧
      fqTail tcb g m fqN mulN dataN s2 = Outcome.commit nf hc := by
  unfold fqMulCallback at h
  split at h
  · next fqN mulN mcN dataN hfq hmul hmc hdata =>
    split at h
    · next t hcv =>
      obtain ⟨s2, hs2⟩ := fqStage2_commit_inv h
      exact ⟨fqN, mulN, mcN, dataN, t, s2, hfq, hmul, hmc, hdata, hcv, hs2⟩
    · cases h
  · cases h

theorem runCallback_reject {tcb : NewFQ → Bool} {g : Graph} {m : Match} {hc : Bool}
    (h : fqMulCallback tcb g m = Outcome.reject hc) :
    runCallback tcb g m = ⟨false, g, hc⟩ := by
  unfold runCallback
  rw [h]

theorem runCallback_commit {tcb : NewFQ → Bool} {g : Graph} {m : Match}
    {nf : NewFQ} {hc : Bool}
    (h : fqMulCallback tcb g m = Outcome.commit nf hc) :
    runCallback tcb g m = ⟨true, commitGraph g m nf, hc⟩ := by
  unfold runCallback
  rw [h]

theorem accepted_commit {tcb : NewFQ → Bool} {g : Graph} {m : Match}
    (h : (runCallback tcb g m).accepted = true) :
    ∃ nf hc, fqMulCallback tcb g m = Outcome.commit nf hc := by
  cases hE : fqMulCallback tcb g m with
  | reject hc =>
    rw [runCallback_reject hE] at h
    cases h
  | commit nf hc => exact ⟨nf, hc, rfl⟩

theorem runCallback_fields_reject {tcb : NewFQ → Bool} {g : Graph} {m : Match} {hc : Bool}
    (h : fqMulCallback tcb g m = Outcome.reject hc) :
    (runCallback tcb g m).accepted = false ∧ (runCallback tcb g m).graph = g ∧
    (runCallback tcb g m).hookConsulted = hc := by
  rw [runCallback_reject h]
  exact ⟨rfl, rfl, rfl⟩

theorem runCallback_fields_commit {tcb : NewFQ → Bool} {g : Graph} {m : Match}
    {nf : NewFQ} {hc : Bool} (h : fqMulCallback tcb g m = Outcome.commit nf hc) :
    (runCallback tcb g m).accepted = true ∧
    (runCallback tcb g m).graph = commitGraph g m nf ∧
    (runCallback tcb g m).hookConsulted = hc := by
  rw [runCallback_commit h]
  exact ⟨rfl, rfl, rfl⟩

theorem fqShapeGuard_cases (mulN : Node) (nf : NewFQ) (hc : Bool) :
    fqShapeGuard mulN nf hc = Outcome.reject hc ∨
    fqShapeGuard mulN nf hc = Outcome.commit nf hc := by
  unfold fqShapeGuard
  split
  · split
    · left; rfl
    · split
      · left; rfl
      · right; rfl
  · right; rfl

theorem fqTail_reject_hook {tcb : NewFQ → Bool} {g : Graph} {m : Match}
    {fqN mulN dataN : Node} {s : ScaleRepr}
    (h : fqTail tcb g m fqN mulN dataN s = Outcome.reject true) :
    ¬ dataN.kind = OpKind.Constant := by
  unfold fqTail at h
  split at h
  · next hcond => exact hcond.1
  · rcases fqShapeGuard_cases mulN (mkNewFQ g m fqN dataN s)
      (decide (¬ dataN.kind = OpKind.Constant)) with hcase | hcase
    · have h2 := hcase.symm.trans h
      injection h2 with h3
      exact of_decide_eq_true h3
    · have h2 := hcase.symm.trans h
      cases h2

theorem fqMulCallback_reject_hook {tcb : NewFQ → Bool} {g : Graph} {m : Match}
    (h : fqMulCallback tcb g m = Outcome.reject true) :
    ∃ dataN2, gfind g m.data = some dataN2 ∧ ¬ dataN2.kind = OpKind.Constant := by
  unfold fqMulCallback at h
  split at h
  · next fqN mulN mcN dataN hfq hmul hmc hdata =>
    split at h
    · next t hcv =>
      refine ⟨dataN, hdata, ?_⟩
      unfold fqStage2 at h
      split at h
      · exact fqTail_reject_hook h
      · split at h
        · injection h with h1
          cases h1
        · split at h
          · injection h with h1
            cases h1
          · exact fqTail_reject_hook h
    · injection h with h1
      cases h1
  · injection h with h1
    cases h1

theorem dims_static_of_not_dyn {ds : List Dim}
    (h : ds.any (fun d => match d with | Dim.dyn => true | Dim.static _ => false) = false) :
    ∃ l, dimsToStatic ds = some l ∧ ds = l.map Dim.static := by
  induction ds with
  | nil => exact ⟨[], rfl, rfl⟩
  | cons d ds ih =>
    rw [List.any_cons, Bool.or_eq_false_iff] at h
    cases d with
    | dyn => cases h.1
    | static n =>
      obtain ⟨l, hl1, hl2⟩ := ih h.2
      refine ⟨n :: l, ?_, ?_⟩
      · rw [dimsToStatic, hl1]
        rfl
      · rw [List.map_cons, ← hl2]

theorem ps_eq_of_toStatic {p q : PartialShape} (hp : p.isDynamic = false)
    (hq : q.isDynamic = false) (he : p.toStatic = q.toStatic) : p = q := by
  cases p with
  | dynRank => cases hp
  | ranked dsp =>
    cases q with
    | dynRank => cases hq
    | ranked dsq =>
      obtain ⟨lp, hlp1, hlp2⟩ := dims_static_of_not_dyn hp
      obtain ⟨lq, hlq1, hlq2⟩ := dims_static_of_not_dyn hq
      rw [PartialShape.toStatic, PartialShape.toStatic, hlp1, hlq1] at he
      injection he with he2
      rw [hlp2, hlq2, he2]

theorem gfind_commit_parts (g : Graph) (m : Match) (nf : NewFQ) :
    gfind (commitGraph g m nf) (freshId g + 2)
      = some (rangeNodeOf g
          (match nf.scale with | ScaleRepr.original _ => m.mulConst | _ => freshId g + 1)
          (scaleTensor nf.scale).shape nf.adjLow) ∧
    gfind (commitGraph g m nf) (freshId g + 3)
      = some (rangeNodeOf g
          (match nf.scale with | ScaleRepr.original _ => m.mulConst | _ => freshId g + 1)
          (scaleTensor nf.scale).shape nf.adjHigh) ∧
    gfind (commitGraph g m nf) (freshId g + 4)
      = some ⟨OpKind.FakeQuantize,
          (((gfind g m.mul).map Node.name).getD ""),
          mergeRt (((gfind g m.fq).map Node.rtInfo).getD [])
                  (((gfind g m.mul).map Node.rtInfo).getD []),
          ((((gfind g m.fq).map Node.inputs).getD []).take 3)
            ++ [freshId g + 2, freshId g + 3],
          nf.outShape, nf.autoBroadcast, none⟩ := by
  have hA : ∀ k, freshId g ≤ k →
      ∀ p ∈ g.map (fun p => (p.1,
        { p.2 with inputs := p.2.inputs.map (fun j => if j = m.mul then freshId g + 4 else j) })),
        p.1 ≠ k := by
    intro k hk p hp
    obtain ⟨q, hq, rfl⟩ := List.mem_map.mp hp
    have := mem_lt_freshId hq
    omega
  have hB : ∀ k, freshId g + 2 ≤ k →
      ∀ p ∈ (match nf.scale with
        | ScaleRepr.original _ => ([] : Graph)
        | ScaleRepr.collapsed t => [(freshId g + 1, constNode t)]
        | ScaleRepr.reshaped t =>
            [(freshId g, shapeConstNode t.shape),
             (freshId g + 1, reshapeNode m.mulConst (freshId g) t)]),
        p.1 ≠ k := by
    intro k hk p hp
    cases hsc : nf.scale with
    | original t =>
      rw [hsc] at hp
      cases hp
    | collapsed t =>
      rw [hsc] at hp
      rcases List.mem_cons.mp hp with rfl | hnil
      · show freshId g + 1 ≠ k
        omega
      · cases hnil
    | reshaped t =>
      rw [hsc] at hp
      rcases List.mem_cons.mp hp with rfl | hp2
      · show freshId g ≠ k
        omega
      · rcases List.mem_cons.mp hp2 with rfl | hnil
        · show freshId g + 1 ≠ k
          omega
        · cases hnil
  have hAB : ∀ k, freshId g + 2 ≤ k →
      ∀ p ∈ (g.map (fun p => (p.1,
        { p.2 with inputs := p.2.inputs.map (fun j => if j = m.mul then freshId g + 4 else j) })))
        ++ (match nf.scale with
        | ScaleRepr.original _ => ([] : Graph)
        | ScaleRepr.collapsed t => [(freshId g + 1, constNode t)]
        | ScaleRepr.reshaped t =>
            [(freshId g, shapeConstNode t.shape),
             (freshId g + 1, reshapeNode m.mulConst (freshId g) t)]),
        p.1 ≠ k := by
    intro k hk p hp
    rcases List.mem_append.mp hp with hp1 | hp2
    · exact hA k (by omega) p hp1
    · exact hB k hk p hp2
  refine ⟨?_, ?_, ?_⟩
  · unfold commitGraph
    rw [gfind_append_right (hAB (freshId g + 2) (by omega))]
    rw [gfind, if_pos rfl]
  · unfold commitGraph
    rw [gfind_append_right (hAB (freshId g + 3) (by omega))]
    rw [gfind, if_neg (by omega), gfind, if_pos rfl]
  · unfold commitGraph
    rw [gfind_append_right (hAB (freshId g + 4) (by omega))]
    rw [gfind, if_neg (by omega), gfind, if_neg (by omega), gfind, if_pos rfl]

/-- C2: commit-or-reject atomicity.  Every invocation of the callback either
returns false and leaves the graph exactly as it was, or returns true and
applies the full substitution: every pre-existing node survives with its
consumer edges redirected from the Multiply to the replacement node, and the
replacement node carries the Multiply's friendly name and the merged metadata
of the original quantize and Multiply nodes. -/
theorem claim_C2_atomicity (tcb : NewFQ → Bool) (g : Graph) (m : Match) :
    ((runCallback tcb g m).accepted = false → (runCallback tcb g m).graph = g) ∧
    ((runCallback tcb g m).accepted = true →
      ∃ nfId,
        (∀ p ∈ g,
          (p.1, { p.2 with inputs := p.2.inputs.map (fun j => if j = m.mul then nfId else j) })
            ∈ (runCallback tcb g m).graph) ∧
        ∃ nfNode, (nfId, nfNode) ∈ (runCallback tcb g m).graph ∧
          (∀ mulN, gfind g m.mul = some mulN → nfNode.name = mulN.name) ∧
          (∀ fqN mulN, gfind g m.fq = some fqN → gfind g m.mul = some mulN →
            ∀ k, (k ∈ fqN.rtInfo ∨ k ∈ mulN.rtInfo) → k ∈ nfNode.rtInfo)) := by
  constructor
  · intro hf
    cases hE : fqMulCallback tcb g m with
    | reject hc => exact (runCallback_fields_reject hE).2.1
    | commit nf hc =>
      rw [(runCallback_fields_commit hE).1] at hf
      cases hf
  · intro ht
    obtain ⟨nf, hc, hE⟩ := accepted_commit ht
    rw [(runCallback_fields_commit hE).2.1]
    refine ⟨freshId g + 4, ?_, ?_⟩
    · intro p hp
      unfold commitGraph
      exact List.mem_append_left _ (List.mem_append_left _ (List.mem_map_of_mem _ hp))
    · refine ⟨⟨OpKind.FakeQuantize,
          (((gfind g m.mul).map Node.name).getD ""),
          mergeRt (((gfind g m.fq).map Node.rtInfo).getD [])
                  (((gfind g m.mul).map Node.rtInfo).getD []),
          ((((gfind g m.fq).map Node.inputs).getD []).take 3)
            ++ [freshId g + 2, freshId g + 3],
          nf.outShape, nf.autoBroadcast, none⟩, ?_, ?_, ?_⟩
      · unfold commitGraph
        apply List.mem_append_right
        exact List.mem_cons_of_mem _ (List.mem_cons_of_mem _ (List.mem_cons_self _ _))
      · intro mulN hmul
        rw [hmul]
        rfl
      · intro fqN mulN hfq hmul k hk
        rw [hfq, hmul]
        show k ∈ mergeRt fqN.rtInfo mulN.rtInfo
        rcases hk with hk | hk
        · exact mem_mergeRt_left hk
        · exact mem_mergeRt_right hk

/-- C4: the convolution guard.  On a match whose scale constant is genuinely
multi-valued (neither single-element by shape nor collapsible to a single
value) and whose quantize node has a Convolution or GroupConvolution among its
users, the callback rejects and the graph is unchanged. -/
theorem claim_C4_conv_guard (tcb : NewFQ → Bool) (g : Graph) (m : Match)
    (fqN mulN mcN dataN : Node) (t : TensorValue)
    (hb : matchBound g m fqN mulN mcN dataN t)
    (hs1 : ¬ shapeSize t.shape = 1) (hs2 : get_single_value t = none)
    (hconv : fqOutputIsConv g m.fq = true) :
    (runCallback tcb g m).accepted = false ∧ (runCallback tcb g m).graph = g := by
  obtain ⟨hfq, hfqk, hl5, h0, h3, h4, hmul, hmulk, hmuli, hmc, hmck, hcv, hdata⟩ := hb
  have hnorm : normalizeScaleRepr t = ScaleRepr.original t := by
    unfold normalizeScaleRepr
    rw [if_neg hs1, hs2]
  have hcall : fqMulCallback tcb g m = Outcome.reject false := by
    simp only [fqMulCallback, hfq, hmul, hmc, hdata, hcv, hnorm, fqStage2, scaleTensor]
    rw [if_neg hs1, if_pos hconv]
  obtain ⟨ha, hg, -⟩ := runCallback_fields_reject hcall
  exact ⟨ha, hg⟩

/-- C6: the unknown-rank guard.  On a match whose scale constant stays genuinely
multi-valued after normalization and whose data input has unknown rank, the
callback rejects and the graph is unchanged. -/
theorem claim_C6_rank_guard (tcb : NewFQ → Bool) (g : Graph) (m : Match)
    (fqN mulN mcN dataN : Node) (t : TensorValue)
    (hb : matchBound g m fqN mulN mcN dataN t)
    (hs1 : ¬ shapeSize t.shape = 1) (hs2 : get_single_value t = none)
    (hdynr : dataN.outShape = PartialShape.dynRank) :
    (runCallback tcb g m).accepted = false ∧ (runCallback tcb g m).graph = g := by
  obtain ⟨hfq, hfqk, hl5, h0, h3, h4, hmul, hmulk, hmuli, hmc, hmck, hcv, hdata⟩ := hb
  have hnorm : normalizeScaleRepr t = ScaleRepr.original t := by
    unfold normalizeScaleRepr
    rw [if_neg hs1, hs2]
  have hcall : fqMulCallback tcb g m = Outcome.reject false := by
    simp only [fqMulCallback, hfq, hmul, hmc, hdata, hcv, hnorm, fqStage2, scaleTensor]
    rw [if_neg hs1]
    cases hcv2 : fqOutputIsConv g m.fq with
    | true => rw [if_pos rfl]
    | false =>
      rw [if_neg Bool.false_ne_true, hdynr]
  obtain ⟨ha, hg, -⟩ := runCallback_fields_reject hcall
  exact ⟨ha, hg⟩

/-- C5: under the full match precondition (the pattern's consumers_count(1) on
the quantize node), the quantize node's user list is exactly the matched
Multiply, so the convolution test of lines 82-85 computes false: the rejection
branch is unreachable on matched subgraphs. -/
theorem claim_C5_conv_unreachable (g : Graph) (m : Match)
    (fqN mulN mcN dataN : Node) (t : TensorValue)
    (h : matchPre g m fqN mulN mcN dataN t) :
    users g m.fq = [m.mul] ∧ fqOutputIsConv g m.fq = false := by
  obtain ⟨hb, hnd, honly⟩ := h
  obtain ⟨hfq, hfqk, hl5, h0, h3, h4, hmul, hmulk, hmuli, hmc, hmck, hcv, hdata⟩ := hb
  have hmem := gfind_mem hmul
  have hin : m.fq ∈ mulN.inputs := by
    rw [hmuli]
    exact List.mem_cons_self _ _
  have husers := users_single hnd hmem hin honly
  refine ⟨husers, ?_⟩
  unfold fqOutputIsConv
  rw [husers]
  simp [isConvUser, hmul, hmulk, isConvKind]

/-- C10: gating of the acceptance hook.  When the data input is not a
Constant, a committed rewrite implies the hook was consulted, and an
always-declining hook forces rejection with the graph unchanged; when the data
input is a Constant (weights quantization), the hook is never consulted. -/
theorem claim_C10_hook (tcb : NewFQ → Bool) (g : Graph) (m : Match)
    (fqN mulN mcN dataN : Node) (t : TensorValue)
    (hb : matchBound g m fqN mulN mcN dataN t) :
    (¬ dataN.kind = OpKind.Constant →
      (runCallback tcb g m).accepted = true → (runCallback tcb g m).hookConsulted = true) ∧
    (¬ dataN.kind = OpKind.Constant → (∀ nf, tcb nf = true) →
      (runCallback tcb g m).accepted = false ∧ (runCallback tcb g m).graph = g) ∧
    (dataN.kind = OpKind.Constant → (runCallback tcb g m).hookConsulted = false) := by
  obtain ⟨hfq, hfqk, hl5, h0, h3, h4, hmul, hmulk, hmuli, hmc, hmck, hcv, hdata⟩ := hb
  refine ⟨?_, ?_, ?_⟩
  · intro hnc hacc
    obtain ⟨nf, hc, hE⟩ := accepted_commit hacc
    obtain ⟨fqN2, mulN2, mcN2, dataN2, t2, s2, hfq2, hmul2, hmc2, hdata2, hcv2, htail⟩ :=
      fqMulCallback_commit_inv hE
    have hdd : dataN2 = dataN := by
      rw [hdata] at hdata2
      injection hdata2 with hdd2
      exact hdd2.symm
    obtain ⟨hnf, hhc, hhook, hguard⟩ := fqTail_commit_inv htail
    rw [(runCallback_fields_commit hE).2.2, hhc, hdd]
    exact decide_eq_true hnc
  · intro hnc hall
    cases hE : fqMulCallback tcb g m with
    | reject hc =>
      obtain ⟨ha, hg, -⟩ := runCallback_fields_reject hE
      exact ⟨ha, hg⟩
    | commit nf hc =>
      exfalso
      obtain ⟨fqN2, mulN2, mcN2, dataN2, t2, s2, hfq2, hmul2, hmc2, hdata2, hcv2, htail⟩ :=
        fqMulCallback_commit_inv hE
      have hdd : dataN2 = dataN := by
        rw [hdata] at hdata2
        injection hdata2 with hdd2
        exact hdd2.symm
      obtain ⟨hnf, hhc, hhook, hguard⟩ := fqTail_commit_inv htail
      have := hhook (hdd ▸ hnc)
      rw [hall nf] at this
      cases this
  · intro hcd
    cases hE : fqMulCallback tcb g m with
    | reject hc =>
      rw [(runCallback_fields_reject hE).2.2]
      cases hc with
      | false => rfl
      | true =>
        exfalso
        obtain ⟨dataN2, hdata2, hnc⟩ := fqMulCallback_reject_hook hE
        rw [hdata] at hdata2
        injection hdata2 with hdd
        exact hnc (hdd ▸ hcd)
    | commit nf hc =>
      obtain ⟨fqN2, mulN2, mcN2, dataN2, t2, s2, hfq2, hmul2, hmc2, hdata2, hcv2, htail⟩ :=
        fqMulCallback_commit_inv hE
      have hdd : dataN2 = dataN := by
        rw [hdata] at hdata2
        injection hdata2 with hdd2
        exact hdd2.symm
      obtain ⟨hnf, hhc, hhook, hguard⟩ := fqTail_commit_inv htail
      rw [(runCallback_fields_commit hE).2.2, hhc, hdd]
      simp [hcd]

/-- C1 (counterexample): the shape guard of lines 133-141 does not fire in the
strict (non-numpy) exact-match mode.  On gCex the quantize node's policy is
NONE, both the replacement's output shape and the Multiply's output shape are
fully known and differ, yet the callback commits the rewrite and mutates the
graph — refuting the claim that the rule rejects under these conditions in the
strict mode. -/
theorem claim_C1_counterexample :
    (runCallback tcbF gCex mW).accepted = true ∧
    ¬ (runCallback tcbF gCex mW).graph = gCex ∧
    (fqMulCallback tcbF gCex mW).nfData
      = some (AutoBroadcastType.NONE, staticPS [2]) ∧
    gfind gCex mW.mul = some cxMul ∧
    cxMul.outShape = staticPS [3] ∧
    (staticPS [2]).isDynamic = false ∧
    (staticPS [3]).isDynamic = false ∧
    ¬ (staticPS [2] : PartialShape) = staticPS [3] := by
  refine ⟨by decide, ?_, by decide, by decide, by decide, by decide, by decide, by decide⟩
  intro h
  have h2 := congrArg List.length h
  revert h2
  decide

/-- C1 (amended): the legality re-check before committing fires when the
replacement quantize node's broadcast policy is the NUMPY mode (not the strict
mode): in that mode the callback rejects, leaving the graph unchanged, whenever
the replacement's output shape or the original Multiply's output shape is not
fully known, or both are known but unequal. -/
theorem claim_C1_numpy_guard (tcb : NewFQ → Bool) (g : Graph) (m : Match)
    (fqN mulN mcN dataN : Node) (t : TensorValue)
    (hb : matchBound g m fqN mulN mcN dataN t)
    (hmode : fqN.autoBroadcast = AutoBroadcastType.NUMPY)
    (hbad : (fqInferOutputShape dataN.outShape).isDynamic = true ∨
            mulN.outShape.isDynamic = true ∨
            ¬ fqInferOutputShape dataN.outShape = mulN.outShape) :
    (runCallback tcb g m).accepted = false ∧ (runCallback tcb g m).graph = g := by
  obtain ⟨hfq, hfqk, hl5, h0, h3, h4, hmul, hmulk, hmuli, hmc, hmck, hcv, hdata⟩ := hb
  cases hE : fqMulCallback tcb g m with
  | reject hc =>
    obtain ⟨ha, hg, -⟩ := runCallback_fields_reject hE
    exact ⟨ha, hg⟩
  | commit nf hc =>
    exfalso
    obtain ⟨fqN2, mulN2, mcN2, dataN2, t2, s2, hfq2, hmul2, hmc2, hdata2, hcv2, htail⟩ :=
      fqMulCallback_commit_inv hE
    have hdd : dataN2 = dataN := by
      rw [hdata] at hdata2
      injection hdata2 with x
      exact x.symm
    have hff : fqN2 = fqN := by
      rw [hfq] at hfq2
      injection hfq2 with x
      exact x.symm
    have hmm : mulN2 = mulN := by
      rw [hmul] at hmul2
      injection hmul2 with x
      exact x.symm
    obtain ⟨hnf, hhc, hhook, hguard⟩ := fqTail_commit_inv htail
    have hab : nf.autoBroadcast = AutoBroadcastType.NUMPY := by
      rw [hnf]
      show fqN2.autoBroadcast = _
      rw [hff]
      exact hmode
    obtain ⟨hd1, hd2, hst⟩ := hguard hab
    have hshape : nf.outShape = fqInferOutputShape dataN.outShape := by
      rw [hnf]
      show fqInferOutputShape dataN2.outShape = _
      rw [hdd]
    rcases hbad with hx | hx | hx
    · rw [← hshape, hd1] at hx
      cases hx
    · rw [hmm] at hd2
      rw [hd2] at hx
      cases hx
    · apply hx
      rw [← hshape]
      exact ps_eq_of_toStatic hd1 (hmm ▸ hd2) (hmm ▸ hst)

/-- C7: normalization of an everywhere-equal scale constant.  A constant whose
values are all v keeps its identity when it is already single-element by shape,
and otherwise collapses to the canonical 1-element tensor of value v with the
same element type. -/
theorem claim_C7_normalize (t : TensorValue) (v : ℚ)
    (hne : ¬ t.values = []) (hall : ∀ x ∈ t.values, x = v) :
    (shapeSize t.shape = 1 → normalizeScaleRepr t = ScaleRepr.original t) ∧
    (¬ shapeSize t.shape = 1 →
      normalizeScaleRepr t = ScaleRepr.collapsed ⟨t.et, [1], [v]⟩) := by
  constructor
  · intro h1
    unfold normalizeScaleRepr
    rw [if_pos h1]
  · intro h1
    have hsv : get_single_value t = some v := by
      unfold get_single_value
      cases hv : t.values with
      | nil => exact absurd hv hne
      | cons a rest =>
        have ha : a = v := hall a (hv ▸ List.mem_cons_self a rest)
        have hrest : rest.all (fun x => decide (x = a)) = true := by
          rw [List.all_eq_true]
          intro x hx
          have hxv : x = v := hall x (hv ▸ List.mem_cons_of_mem a hx)
          rw [hxv, ha]
          exact decide_eq_true rfl
        show (if rest.all (fun x => decide (x = a)) then some a else none) = some v
        rw [if_pos hrest, ha]
    unfold normalizeScaleRepr
    rw [if_neg h1, hsv]

/-- C9: after every committed rewrite the replacement quantize node carries the
original Multiply's friendly name, its metadata bag contains every key of the
original quantize node's and the Multiply's bags, and every consumer edge that
read the Multiply's output now reads the replacement's output. -/
theorem claim_C9_name_metadata (tcb : NewFQ → Bool) (g : Graph) (m : Match)
    (fqN mulN mcN dataN : Node) (t : TensorValue)
    (hb : matchBound g m fqN mulN mcN dataN t)
    (hacc : (runCallback tcb g m).accepted = true) :
    ∃ nfNode,
      gfind (runCallback tcb g m).graph (freshId g + 4) = some nfNode ∧
      nfNode.name = mulN.name ∧
      (∀ k ∈ fqN.rtInfo, k ∈ nfNode.rtInfo) ∧
      (∀ k ∈ mulN.rtInfo, k ∈ nfNode.rtInfo) ∧
      (∀ p ∈ g, ∀ slot : Nat, p.2.inputs[slot]? = some m.mul →
        ∃ q : Nat × Node, q ∈ (runCallback tcb g m).graph ∧ q.1 = p.1 ∧
          q.2.inputs[slot]? = some (freshId g + 4)) := by
  obtain ⟨hfq, hfqk, hl5, h0, h3, h4, hmul, hmulk, hmuli, hmc, hmck, hcv, hdata⟩ := hb
  obtain ⟨nf, hc, hE⟩ := accepted_commit hacc
  rw [(runCallback_fields_commit hE).2.1]
  obtain ⟨hlo, hhi, hnf4⟩ := gfind_commit_parts g m nf
  refine ⟨_, hnf4, ?_, ?_, ?_, ?_⟩
  · show (((gfind g m.mul).map Node.name).getD "") = mulN.name
    rw [hmul]
    rfl
  · intro k hk
    show k ∈ mergeRt (((gfind g m.fq).map Node.rtInfo).getD [])
                     (((gfind g m.mul).map Node.rtInfo).getD [])
    rw [hfq, hmul]
    exact mem_mergeRt_left hk
  · intro k hk
    show k ∈ mergeRt (((gfind g m.fq).map Node.rtInfo).getD [])
                     (((gfind g m.mul).map Node.rtInfo).getD [])
    rw [hfq, hmul]
    exact mem_mergeRt_right hk
  · intro p hp slot hslot
    refine ⟨(p.1, { p.2 with
        inputs := p.2.inputs.map (fun j => if j = m.mul then freshId g + 4 else j) }),
      ?_, rfl, ?_⟩
    · unfold commitGraph
      exact List.mem_append_left _ (List.mem_append_left _ (List.mem_map_of_mem _ hp))
    · show (p.2.inputs.map (fun j => if j = m.mul then freshId g + 4 else j))[slot]?
          = some (freshId g + 4)
      rw [List.getElem?_map, hslot]
      simp

/-- C8: constant folding of the adjusted ranges.  On a committed rewrite whose
original range bounds are Constants, the replacement quantize node's two range
inputs are Constant nodes carrying the broadcast products of the range bounds
with the (normalized) scale, and the nodes wired into its range inputs are
Constants, not runtime Multiply nodes. -/
theorem claim_C8_fold (tcb : NewFQ → Bool) (g : Graph) (m : Match)
    (fqN mulN mcN dataN olN ohN : Node) (t tl th : TensorValue)
    (hb : matchBound g m fqN mulN mcN dataN t)
    (hol : gfind g m.outLow = some olN) (holk : olN.kind = OpKind.Constant)
    (holv : olN.constValue = some tl)
    (hoh : gfind g m.outHigh = some ohN) (hohk : ohN.kind = OpKind.Constant)
    (hohv : ohN.constValue = some th)
    (hacc : (runCallback tcb g m).accepted = true) :
    ∃ nf hc, fqMulCallback tcb g m = Outcome.commit nf hc ∧
      nf.adjLow = RangeNode.folded (bmulTensors tl (scaleTensor nf.scale)) ∧
      nf.adjHigh = RangeNode.folded (bmulTensors th (scaleTensor nf.scale)) ∧
      gfind (runCallback tcb g m).graph (freshId g + 2)
        = some (constNode (bmulTensors tl (scaleTensor nf.scale))) ∧
      gfind (runCallback tcb g m).graph (freshId g + 3)
        = some (constNode (bmulTensors th (scaleTensor nf.scale))) ∧
      ∃ nfNode,
        gfind (runCallback tcb g m).graph (freshId g + 4) = some nfNode ∧
        nfNode.kind = OpKind.FakeQuantize ∧
        nfNode.inputs.drop 3 = [freshId g + 2, freshId g + 3] := by
  obtain ⟨hfq, hfqk, hl5, h0, h3, h4, hmul, hmulk, hmuli, hmc, hmck, hcv, hdata⟩ := hb
  obtain ⟨nf, hc, hE⟩ := accepted_commit hacc
  obtain ⟨fqN2, mulN2, mcN2, dataN2, t2, s2, hfq2, hmul2, hmc2, hdata2, hcv2, htail⟩ :=
    fqMulCallback_commit_inv hE
  obtain ⟨hnf, -, -, -⟩ := fqTail_commit_inv htail
  have hscale : nf.scale = s2 := by
    rw [hnf]
    rfl
  have hadjL : nf.adjLow = RangeNode.folded (bmulTensors tl (scaleTensor s2)) := by
    rw [hnf]
    show get_adjusted_output_range g s2 m.outLow = _
    simp only [get_adjusted_output_range, hol, holv]
    rw [if_pos holk]
  have hadjH : nf.adjHigh = RangeNode.folded (bmulTensors th (scaleTensor s2)) := by
    rw [hnf]
    show get_adjusted_output_range g s2 m.outHigh = _
    simp only [get_adjusted_output_range, hoh, hohv]
    rw [if_pos hohk]
  rw [← hscale] at hadjL hadjH
  rw [(runCallback_fields_commit hE).2.1]
  obtain ⟨hlo, hhi, hnf4⟩ := gfind_commit_parts g m nf
  refine ⟨nf, hc, hE, hadjL, hadjH, ?_, ?_, ?_⟩
  · rw [hlo, hadjL]
    rfl
  · rw [hhi, hadjH]
    rfl
  · refine ⟨_, hnf4, rfl, ?_⟩
    show (((((gfind g m.fq).map Node.inputs).getD []).take 3)
        ++ [freshId g + 2, freshId g + 3]).drop 3 = [freshId g + 2, freshId g + 3]
    rw [hfq]
    show ((fqN.inputs.take 3) ++ [freshId g + 2, freshId g + 3]).drop 3 = _
    have hlen3 : (fqN.inputs.take 3).length = 3 := by
      rw [List.length_take, hl5]
      decide
    rw [List.drop_left' hlen3]

/-- Witness for the amended C1 guard on a concrete graph: numpy policy with
mismatched known shapes, rejected with the graph unchanged. -/
theorem claim_C1_numpy_guard_witness :
    matchBound gNumpyBad mW wFq a1Mul wScale wData wScaleT ∧
    wFq.autoBroadcast = AutoBroadcastType.NUMPY ∧
    ¬ fqInferOutputShape wData.outShape = a1Mul.outShape ∧
    (runCallback tcbF gNumpyBad mW).accepted = false ∧
    (runCallback tcbF gNumpyBad mW).graph = gNumpyBad :=
  ⟨by decide, by decide, by decide,
   claim_C1_numpy_guard tcbF gNumpyBad mW wFq a1Mul wScale wData wScaleT
     (by decide) (by decide) (Or.inr (Or.inr (by decide)))⟩

/-- Witness for the convolution guard on a concrete graph. -/
theorem claim_C4_conv_guard_witness :
    matchBound gConv mW wFq wMul wScaleMulti wData wScaleMultiT ∧
    ¬ shapeSize wScaleMultiT.shape = 1 ∧
    get_single_value wScaleMultiT = none ∧
    fqOutputIsConv gConv mW.fq = true ∧
    (runCallback tcbF gConv mW).accepted = false ∧
    (runCallback tcbF gConv mW).graph = gConv :=
  ⟨by decide, by decide, by decide, by decide,
   claim_C4_conv_guard tcbF gConv mW wFq wMul wScaleMulti wData wScaleMultiT
     (by decide) (by decide) (by decide) (by decide)⟩

/-- Witness for the unreachability of the convolution branch on a matched
subgraph. -/
theorem claim_C5_conv_unreachable_witness :
    matchPre gAcc mW wFq wMul wScale wData wScaleT ∧
    (users gAcc mW.fq = [mW.mul] ∧ fqOutputIsConv gAcc mW.fq = false) :=
  ⟨by decide,
   claim_C5_conv_unreachable gAcc mW wFq wMul wScale wData wScaleT (by decide)⟩

/-- Witness for the unknown-rank guard on a concrete graph. -/
theorem claim_C6_rank_guard_witness :
    matchBound gDynRank mW wFq wMul wScaleMulti wDataDyn wScaleMultiT ∧
    ¬ shapeSize wScaleMultiT.shape = 1 ∧
    get_single_value wScaleMultiT = none ∧
    wDataDyn.outShape = PartialShape.dynRank ∧
    (runCallback tcbF gDynRank mW).accepted = false ∧
    (runCallback tcbF gDynRank mW).graph = gDynRank :=
  ⟨by decide, by decide, by decide, by decide,
   claim_C6_rank_guard tcbF gDynRank mW wFq wMul wScaleMulti wDataDyn wScaleMultiT
     (by decide) (by decide) (by decide) (by decide)⟩

/-- Witness for the scale normalization on a concrete everywhere-equal tensor. -/
theorem claim_C7_normalize_witness :
    ¬ wAllEq.values = [] ∧
    (∀ x ∈ wAllEq.values, x = 3) ∧
    ((shapeSize wAllEq.shape = 1 → normalizeScaleRepr wAllEq = ScaleRepr.original wAllEq) ∧
     (¬ shapeSize wAllEq.shape = 1 →
       normalizeScaleRepr wAllEq = ScaleRepr.collapsed ⟨wAllEq.et, [1], [3]⟩)) :=
  ⟨by decide, by decide, claim_C7_normalize wAllEq 3 (by decide) (by decide)⟩

/-- Witness for the constant folding of adjusted ranges on a concrete accepted
rewrite. -/
theorem claim_C8_fold_witness :
    matchBound gAcc mW wFq wMul wScale wData wScaleT ∧
    gfind gAcc mW.outLow = some wOutLow ∧ wOutLow.kind = OpKind.Constant ∧
    wOutLow.constValue = some wOutLowT ∧
    gfind gAcc mW.outHigh = some wOutHigh ∧ wOutHigh.kind = OpKind.Constant ∧
    wOutHigh.constValue = some wOutHighT ∧
    (runCallback tcbF gAcc mW).accepted = true ∧
    (∃ nf hc, fqMulCallback tcbF gAcc mW = Outcome.commit nf hc ∧
      nf.adjLow = RangeNode.folded (bmulTensors wOutLowT (scaleTensor nf.scale)) ∧
      nf.adjHigh = RangeNode.folded (bmulTensors wOutHighT (scaleTensor nf.scale)) ∧
      gfind (runCallback tcbF gAcc mW).graph (freshId gAcc + 2)
        = some (constNode (bmulTensors wOutLowT (scaleTensor nf.scale))) ∧
      gfind (runCallback tcbF gAcc mW).graph (freshId gAcc + 3)
        = some (constNode (bmulTensors wOutHighT (scaleTensor nf.scale))) ∧
      ∃ nfNode,
        gfind (runCallback tcbF gAcc mW).graph (freshId gAcc + 4) = some nfNode ∧
        nfNode.kind = OpKind.FakeQuantize ∧
        nfNode.inputs.drop 3 = [freshId gAcc + 2, freshId gAcc + 3]) :=
  ⟨by decide, by decide, by decide, by decide, by decide, by decide, by decide, by decide,
   claim_C8_fold tcbF gAcc mW wFq wMul wScale wData wOutLow wOutHigh wScaleT wOutLowT wOutHighT
     (by decide) (by decide) (by decide) (by decide) (by decide) (by decide) (by decide)
     (by decide)⟩

/-- Witness for the name and metadata preservation on a concrete accepted
rewrite. -/
theorem claim_C9_name_metadata_witness :
    matchBound gAcc mW wFq wMul wScale wData wScaleT ∧
    (runCallback tcbF gAcc mW).accepted = true ∧
    (∃ nfNode,
      gfind (runCallback tcbF gAcc mW).graph (freshId gAcc + 4) = some nfNode ∧
      nfNode.name = wMul.name ∧
      (∀ k ∈ wFq.rtInfo, k ∈ nfNode.rtInfo) ∧
      (∀ k ∈ wMul.rtInfo, k ∈ nfNode.rtInfo) ∧
      (∀ p ∈ gAcc, ∀ slot : Nat, p.2.inputs[slot]? = some mW.mul →
        ∃ q : Nat × Node, q ∈ (runCallback tcbF gAcc mW).graph ∧ q.1 = p.1 ∧
          q.2.inputs[slot]? = some (freshId gAcc + 4))) :=
  ⟨by decide, by decide,
   claim_C9_name_metadata tcbF gAcc mW wFq wMul wScale wData wScaleT
     (by decide) (by decide)⟩

/-- Witness for the acceptance-hook gating on a concrete graph whose data
input is not a Constant, with an always-declining hook. -/
theorem claim_C10_hook_witness :
    matchBound gHook mW wFq wMul wScale wDataParam wScaleT ∧
    ((¬ wDataParam.kind = OpKind.Constant →
       (runCallback tcbT gHook mW).accepted = true →
       (runCallback tcbT gHook mW).hookConsulted = true) ∧
     (¬ wDataParam.kind = OpKind.Constant → (∀ nf, tcbT nf = true) →
       (runCallback tcbT gHook mW).accepted = false ∧
       (runCallback tcbT gHook mW).graph = gHook) ∧
     (wDataParam.kind = OpKind.Constant →
       (runCallback tcbT gHook mW).hookConsulted = false)) :=
  ⟨by decide,
   claim_C10_hook tcbT gHook mW wFq wMul wScale wDataParam wScaleT (by decide)⟩

theorem shapeSize_cons (d : Nat) (ds : List Nat) : shapeSize (d :: ds) = d * shapeSize ds := rfl

theorem crossRange_length (n : Nat) (tails : List (List Nat)) :
    (crossRange n tails).length = n * tails.length := by
  induction n with
  | zero =>
    show ([] : List (List Nat)).length = 0 * tails.length
    rw [List.length_nil, Nat.zero_mul]
  | succ k ih =>
    rw [crossRange, List.length_append, ih, List.length_map]
    ring

theorem length_allIndices (ds : List Nat) : (allIndices ds).length = shapeSize ds := by
  induction ds with
  | nil => rfl
  | cons d ds ih =>
    rw [allIndices, crossRange_length, ih, shapeSize_cons]

theorem mem_crossRange {n : Nat} {tails : List (List Nat)} {ix : List Nat}
    (h : ix ∈ crossRange n tails) : ∃ i, i < n ∧ ∃ tl ∈ tails, ix = i :: tl := by
  induction n with
  | zero => cases h
  | succ k ih =>
    rcases List.mem_append.mp h with h1 | h2
    · obtain ⟨i, hi, tl, htl, he⟩ := ih h1
      exact ⟨i, Nat.lt_succ_of_lt hi, tl, htl, he⟩
    · obtain ⟨tl, htl, he⟩ := List.mem_map.mp h2
      exact ⟨k, Nat.lt_succ_self k, tl, htl, he.symm⟩

theorem mem_crossRange_of {n i : Nat} {tails : List (List Nat)} {tl : List Nat}
    (hi : i < n) (htl : tl ∈ tails) : (i :: tl) ∈ crossRange n tails := by
  induction n with
  | zero => cases hi
  | succ k ih =>
    rcases Nat.lt_succ_iff_lt_or_eq.mp hi with h | rfl
    · exact List.mem_append_left _ (ih h)
    · exact List.mem_append_right _ (List.mem_map_of_mem _ htl)

theorem length_of_mem_allIndices {ds ix : List Nat} (h : ix ∈ allIndices ds) :
    ix.length = ds.length := by
  induction ds generalizing ix with
  | nil =>
    rcases List.mem_singleton.mp h with rfl
    rfl
  | cons d ds ih =>
    obtain ⟨i, hi, tl, htl, rfl⟩ := mem_crossRange h
    rw [List.length_cons, List.length_cons, ih htl]

theorem zip_lt_of_mem_allIndices {ds ix : List Nat} (h : ix ∈ allIndices ds) :
    ∀ p ∈ List.zip ix ds, p.1 < p.2 := by
  induction ds generalizing ix with
  | nil =>
    rcases List.mem_singleton.mp h with rfl
    intro p hp
    cases hp
  | cons d ds ih =>
    obtain ⟨i, hi, tl, htl, rfl⟩ := mem_crossRange h
    intro p hp
    rw [List.zip_cons_cons] at hp
    rcases List.mem_cons.mp hp with rfl | hp2
    · exact hi
    · exact ih htl p hp2

theorem mem_allIndices_of {ds ix : List Nat} (hlen : ix.length = ds.length)
    (hlt : ∀ p ∈ List.zip ix ds, p.1 < p.2) : ix ∈ allIndices ds := by
  induction ds generalizing ix with
  | nil =>
    rw [List.length_nil, List.length_eq_zero] at hlen
    rw [hlen]
    exact List.mem_singleton.mpr rfl
  | cons d ds ih =>
    cases ix with
    | nil => cases hlen
    | cons i tl =>
      have hlen2 : tl.length = ds.length := by
        rw [List.length_cons, List.length_cons] at hlen
        omega
      have hhead : i < d := by
        apply hlt (i, d)
        rw [List.zip_cons_cons]
        exact List.mem_cons_self _ _
      have htail : ∀ p ∈ List.zip tl ds, p.1 < p.2 := by
        intro p hp
        apply hlt p
        rw [List.zip_cons_cons]
        exact List.mem_cons_of_mem _ hp
      exact mem_crossRange_of hhead (ih hlen2 htail)

theorem flat_foldl_affine (ds : List Nat) (ix : List Nat) (h : ds.length = ix.length)
    (a : Nat) :
    (List.zip ds ix).foldl (fun acc p => acc * p.1 + p.2) a
      = a * shapeSize ds + (List.zip ds ix).foldl (fun acc p => acc * p.1 + p.2) 0 := by
  induction ds generalizing ix a with
  | nil =>
    have h1 : shapeSize ([] : List Nat) = 1 := rfl
    show a = a * shapeSize [] + 0
    rw [h1]
    omega
  | cons d ds ih =>
    cases ix with
    | nil => cases h
    | cons i tl =>
      have hlen : ds.length = tl.length := by
        rw [List.length_cons, List.length_cons] at h
        omega
      rw [List.zip_cons_cons, List.foldl_cons, List.foldl_cons]
      rw [ih tl hlen (a * d + i), ih tl hlen (0 * d + i), shapeSize_cons]
      ring

theorem flatIndex_cons (d : Nat) (ds : List Nat) (i : Nat) (ix : List Nat)
    (h : ds.length = ix.length) :
    flatIndex (d :: ds) (i :: ix) = i * shapeSize ds + flatIndex ds ix := by
  unfold flatIndex
  rw [List.zip_cons_cons, List.foldl_cons, flat_foldl_affine ds ix h (0 * d + i)]
  ring_nf

theorem flatIndex_lt {ds ix : List Nat} (h : ix ∈ allIndices ds) :
    flatIndex ds ix < shapeSize ds := by
  induction ds generalizing ix with
  | nil =>
    rcases List.mem_singleton.mp h with rfl
    exact Nat.zero_lt_one
  | cons d ds ih =>
    obtain ⟨i, hi, tl, htl, rfl⟩ := mem_crossRange h
    rw [flatIndex_cons d ds i tl (length_of_mem_allIndices htl).symm, shapeSize_cons]
    have h1 := ih htl
    calc i * shapeSize ds + flatIndex ds tl
        < i * shapeSize ds + shapeSize ds := by omega
      _ = (i + 1) * shapeSize ds := by ring
      _ ≤ d * shapeSize ds := Nat.mul_le_mul_right _ hi

theorem crossRange_getElem (n : Nat) (tails : List (List Nat)) (i k : Nat)
    (hi : i < n) (hk : k < tails.length) :
    (crossRange n tails)[i * tails.length + k]? = (tails[k]?).map (fun tl => i :: tl) := by
  induction n with
  | zero => cases hi
  | succ j ih =>
    rw [crossRange]
    rcases Nat.lt_succ_iff_lt_or_eq.mp hi with h | rfl
    · rw [List.getElem?_append_left]
      · exact ih h
      · rw [crossRange_length]
        calc i * tails.length + k < i * tails.length + tails.length := by omega
          _ = (i + 1) * tails.length := by ring
          _ ≤ j * tails.length := Nat.mul_le_mul_right _ h
    · rw [List.getElem?_append_right (by rw [crossRange_length]; omega)]
      rw [crossRange_length]
      have he : i * tails.length + k - i * tails.length = k := by omega
      rw [he, List.getElem?_map]

theorem allIndices_getElem {ds ix : List Nat} (h : ix ∈ allIndices ds) :
    (allIndices ds)[flatIndex ds ix]? = some ix := by
  induction ds generalizing ix with
  | nil =>
    rcases List.mem_singleton.mp h with rfl
    rfl
  | cons d ds ih =>
    obtain ⟨i, hi, tl, htl, rfl⟩ := mem_crossRange h
    rw [allIndices, flatIndex_cons d ds i tl (length_of_mem_allIndices htl).symm]
    have hk : flatIndex ds tl < (allIndices ds).length := by
      rw [length_allIndices]
      exact flatIndex_lt htl
    have hP : shapeSize ds = (allIndices ds).length := (length_allIndices ds).symm
    rw [hP, crossRange_getElem d (allIndices ds) i (flatIndex ds tl) hi hk, ih htl]
    rfl

theorem bIndex_of_mem {sh ix : List Nat} (h : ix ∈ allIndices sh) : bIndex sh ix = ix := by
  induction sh generalizing ix with
  | nil =>
    rcases List.mem_singleton.mp h with rfl
    rfl
  | cons d ds ih =>
    obtain ⟨i, hi, tl, htl, rfl⟩ := mem_crossRange h
    unfold bIndex
    rw [List.zipWith_cons_cons]
    have htail : List.zipWith (fun d i => if d = 1 then 0 else i) ds tl = tl := ih htl
    rw [htail]
    by_cases hd : d = 1
    · rw [if_pos hd]
      have : i = 0 := by omega
      rw [this]
    · rw [if_neg hd]

theorem padOnes_len_self (s : List Nat) : padOnes s s.length = s := by
  unfold padOnes
  rw [Nat.sub_self]
  rfl

theorem tGet_bmul_mem (a b : TensorValue) (ix : List Nat)
    (h : ix ∈ allIndices (bshape a.shape b.shape)) :
    tGet (bmulTensors a b) (bshape a.shape b.shape).length ix
      = tGet a (bshape a.shape b.shape).length ix
        * tGet b (bshape a.shape b.shape).length ix := by
  show ((bmulTensors a b).values).getD _ 0 = _
  have hshape : (bmulTensors a b).shape = bshape a.shape b.shape := rfl
  rw [hshape, padOnes_len_self, bIndex_of_mem h]
  show ((allIndices (bshape a.shape b.shape)).map _).getD (flatIndex (bshape a.shape b.shape) ix) 0 = _
  rw [List.getD_eq_getElem?_getD, List.getElem?_map, allIndices_getElem h]
  rfl

theorem zipWith_replicate_ones (k : Nat) (l : List Nat) :
    List.zipWith (fun d i => if d = 1 then 0 else i) (List.replicate k 1) l
      = List.replicate (min k l.length) 0 := by
  induction k generalizing l with
  | zero => simp
  | succ j ih =>
    cases l with
    | nil => simp
    | cons x xs =>
      rw [List.replicate_succ, List.zipWith_cons_cons, ih, List.length_cons,
        Nat.succ_min_succ, List.replicate_succ, if_pos rfl]

theorem foldl_ones_zeros (k a : Nat) :
    (List.zip (List.replicate k 1) (List.replicate k 0)).foldl
      (fun acc p => acc * p.1 + p.2) a = a := by
  induction k generalizing a with
  | zero => rfl
  | succ j ih =>
    rw [List.replicate_succ, List.replicate_succ, List.zip_cons_cons, List.foldl_cons]
    have h1 : a * 1 + 0 = a := by omega
    rw [h1]
    exact ih a

theorem tGet_drop2 (t : TensorValue) (r r2 : Nat) (ix : List Nat)
    (h1 : t.shape.length ≤ r2) (h2 : r2 ≤ r) (hlen : ix.length = r) :
    tGet t r ix = tGet t r2 (ix.drop (r - r2)) := by
  have hpad : padOnes t.shape r = List.replicate (r - r2) 1 ++ padOnes t.shape r2 := by
    unfold padOnes
    rw [← List.append_assoc, ← List.replicate_add]
    have h3 : r - t.shape.length = (r - r2) + (r2 - t.shape.length) := by omega
    rw [h3]
  unfold tGet
  rw [hpad]
  have hixsplit : ix = ix.take (r - r2) ++ ix.drop (r - r2) := (List.take_append_drop _ ix).symm
  have hlentake : (List.replicate (r - r2) 1).length = (ix.take (r - r2)).length := by
    rw [List.length_replicate, List.length_take]
    omega
  conv_lhs => rw [hixsplit]
  unfold bIndex
  rw [List.zipWith_append _ _ _ _ _ hlentake]
  have hzeros : List.zipWith (fun d i => if d = 1 then 0 else i)
      (List.replicate (r - r2) 1) (ix.take (r - r2)) = List.replicate (r - r2) 0 := by
    rw [zipWith_replicate_ones]
    have h4 : min (r - r2) (ix.take (r - r2)).length = r - r2 := by
      rw [List.length_take]
      omega
    rw [h4]
  rw [hzeros]
  unfold flatIndex
  rw [List.zip_append (by rw [List.length_replicate, List.length_replicate]),
    List.foldl_append, foldl_ones_zeros]

theorem bIndex_bIndex {d1 d2 u : List Nat} (hlen : d1.length = d2.length)
    (h : ∀ p ∈ List.zip d1 d2, p.2 = 1 → p.1 = 1) :
    bIndex d1 (bIndex d2 u) = bIndex d1 u := by
  induction d1 generalizing d2 u with
  | nil => rfl
  | cons a d1 ih =>
    cases d2 with
    | nil => cases hlen
    | cons c d2 =>
      cases u with
      | nil => rfl
      | cons x xs =>
        unfold bIndex
        rw [List.zipWith_cons_cons, List.zipWith_cons_cons, List.zipWith_cons_cons]
        have hlen2 : d1.length = d2.length := by
          rw [List.length_cons, List.length_cons] at hlen
          omega
        have htail : ∀ p ∈ List.zip d1 d2, p.2 = 1 → p.1 = 1 := by
          intro p hp
          exact h p (by rw [List.zip_cons_cons]; exact List.mem_cons_of_mem _ hp)
        have htl := ih hlen2 htail (u := xs)
        unfold bIndex at htl
        rw [htl]
        by_cases hc : c = 1
        · have ha : a = 1 :=
            h (a, c) (by rw [List.zip_cons_cons]; exact List.mem_cons_self _ _) hc
          rw [if_pos hc, if_pos ha, if_pos ha]
        · rw [if_neg hc]

theorem zip_drop (n : Nat) (l1 l2 : List Nat) :
    List.zip (l1.drop n) (l2.drop n) = (List.zip l1 l2).drop n := by
  induction n generalizing l1 l2 with
  | zero => rfl
  | succ m ih =>
    cases l1 with
    | nil => simp
    | cons x xs =>
      cases l2 with
      | nil => simp
      | cons y ys =>
        rw [List.drop_succ_cons, List.drop_succ_cons, List.zip_cons_cons,
          List.drop_succ_cons]
        exact ih xs ys

theorem padOnes_length (s : List Nat) (r : Nat) (h : s.length ≤ r) :
    (padOnes s r).length = r := by
  unfold padOnes
  rw [List.length_append, List.length_replicate]
  omega

theorem bshape_length (a b : List Nat) :
    (bshape a b).length = max a.length b.length := by
  unfold bshape
  rw [List.length_zipWith, padOnes_length _ _ (Nat.le_max_left _ _),
    padOnes_length _ _ (Nat.le_max_right _ _)]
  exact Nat.min_self _

theorem padOnes_pos {s : List Nat} (h : allPos s = true) (r : Nat) :
    ∀ x ∈ padOnes s r, 0 < x := by
  intro x hx
  unfold padOnes at hx
  rcases List.mem_append.mp hx with h1 | h2
  · rw [List.eq_of_mem_replicate h1]
    exact Nat.zero_lt_one
  · unfold allPos at h
    rw [List.all_eq_true] at h
    exact of_decide_eq_true (h x h2)

theorem zipWith_max_pos {A B : List Nat} (hA : ∀ y ∈ A, 0 < y) :
    ∀ x ∈ List.zipWith max A B, 0 < x := by
  induction A generalizing B with
  | nil =>
    intro x hx
    cases hx
  | cons a A ih =>
    cases B with
    | nil =>
      intro x hx
      cases hx
    | cons b B =>
      intro x hx
      rw [List.zipWith_cons_cons] at hx
      rcases List.mem_cons.mp hx with rfl | h2
      · calc 0 < a := hA a (List.mem_cons_self _ _)
          _ ≤ max a b := Nat.le_max_left _ _
      · exact ih (fun y hy => hA y (List.mem_cons_of_mem _ hy)) x h2

theorem zip_left_zipWith_max {A B : List Nat} (hA : ∀ y ∈ A, 0 < y) :
    ∀ p ∈ List.zip A (List.zipWith max A B), p.2 = 1 → p.1 = 1 := by
  induction A generalizing B with
  | nil =>
    intro p hp
    cases hp
  | cons a A ih =>
    cases B with
    | nil =>
      intro p hp
      rw [List.zipWith_nil_right, List.zip_nil_right] at hp
      cases hp
    | cons b B =>
      intro p hp
      rw [List.zipWith_cons_cons, List.zip_cons_cons] at hp
      rcases List.mem_cons.mp hp with rfl | h2
      · intro h1
        have hpos := hA a (List.mem_cons_self _ _)
        have hle : a ≤ max a b := Nat.le_max_left a b
        omega
      · exact ih (fun y hy => hA y (List.mem_cons_of_mem _ hy)) p h2

theorem zip_right_zipWith_max {A B : List Nat} (hB : ∀ y ∈ B, 0 < y) :
    ∀ p ∈ List.zip B (List.zipWith max A B), p.2 = 1 → p.1 = 1 := by
  induction B generalizing A with
  | nil =>
    intro p hp
    cases hp
  | cons b B ih =>
    cases A with
    | nil =>
      intro p hp
      rw [List.zipWith_nil_left, List.zip_nil_right] at hp
      cases hp
    | cons a A =>
      intro p hp
      rw [List.zipWith_cons_cons, List.zip_cons_cons] at hp
      rcases List.mem_cons.mp hp with rfl | h2
      · intro h1
        have hpos := hB b (List.mem_cons_self _ _)
        have hle : b ≤ max a b := Nat.le_max_right a b
        omega
      · exact ih (fun y hy => hB y (List.mem_cons_of_mem _ hy)) p h2

theorem bIndex_mem {sh Sk jx : List Nat}
    (hcompat : ∀ p ∈ List.zip sh Sk, p.1 = 1 ∨ p.1 = p.2)
    (hbound : ∀ p ∈ List.zip jx Sk, p.1 < p.2)
    (hlen1 : sh.length = Sk.length) (hlen2 : jx.length = Sk.length) :
    bIndex sh jx ∈ allIndices sh := by
  induction sh generalizing Sk jx with
  | nil => exact List.mem_singleton.mpr rfl
  | cons d sh ih =>
    cases Sk with
    | nil => cases hlen1
    | cons s0 Sk =>
      cases jx with
      | nil => cases hlen2
      | cons j jx =>
        show ((if d = 1 then 0 else j) :: bIndex sh jx) ∈ crossRange d (allIndices sh)
        apply mem_crossRange_of
        · by_cases hd : d = 1
          · rw [if_pos hd, hd]
            exact Nat.zero_lt_one
          · rw [if_neg hd]
            rcases hcompat (d, s0)
              (by rw [List.zip_cons_cons]; exact List.mem_cons_self _ _) with h1 | h2
            · exact absurd h1 hd
            · have hj := hbound (j, s0)
                (by rw [List.zip_cons_cons]; exact List.mem_cons_self _ _)
              have h2b : d = s0 := h2
              have hjb : j < s0 := hj
              omega
        · apply ih
          · intro p hp
            exact hcompat p (by rw [List.zip_cons_cons]; exact List.mem_cons_of_mem _ hp)
          · intro p hp
            exact hbound p (by rw [List.zip_cons_cons]; exact List.mem_cons_of_mem _ hp)
          · rw [List.length_cons, List.length_cons] at hlen1
            omega
          · rw [List.length_cons, List.length_cons] at hlen2
            omega

theorem tGet_eq_of_bIndex_eq (t : TensorValue) (L : Nat) (u v : List Nat)
    (h : bIndex (padOnes t.shape L) u = bIndex (padOnes t.shape L) v) :
    tGet t L u = tGet t L v := by
  unfold tGet
  rw [h]

theorem tGet_bmul_gen (a b : TensorValue) (S ix : List Nat)
    (hpa : allPos a.shape = true) (hpb : allPos b.shape = true)
    (hmem : ix ∈ allIndices S)
    (hbc : broadcastsTo (bshape a.shape b.shape) S = true) :
    tGet (bmulTensors a b) S.length ix
      = tGet a S.length ix * tGet b S.length ix := by
  unfold broadcastsTo at hbc
  rw [Bool.and_eq_true, decide_eq_true_eq, List.all_eq_true] at hbc
  obtain ⟨hle, hall⟩ := hbc
  have hlenix : ix.length = S.length := length_of_mem_allIndices hmem
  have hLa : a.shape.length ≤ (bshape a.shape b.shape).length := by
    rw [bshape_length]
    exact Nat.le_max_left _ _
  have hLb : b.shape.length ≤ (bshape a.shape b.shape).length := by
    rw [bshape_length]
    exact Nat.le_max_right _ _
  have hcompat : ∀ p ∈ List.zip (bshape a.shape b.shape)
      (S.drop (S.length - (bshape a.shape b.shape).length)),
      p.1 = 1 ∨ p.1 = p.2 := by
    intro p hp
    have hzd : List.zip (bshape a.shape b.shape)
        (S.drop (S.length - (bshape a.shape b.shape).length))
        = (List.zip (padOnes (bshape a.shape b.shape) S.length) S).drop
            (S.length - (bshape a.shape b.shape).length) := by
      rw [← zip_drop]
      congr 1
      show bshape a.shape b.shape
          = (padOnes (bshape a.shape b.shape) S.length).drop
              (S.length - (bshape a.shape b.shape).length)
      unfold padOnes
      exact (List.drop_left' (by rw [List.length_replicate])).symm
    rw [hzd] at hp
    have hor := hall p (List.mem_of_mem_drop hp)
    rw [Bool.or_eq_true] at hor
    rcases hor with h1 | h1
    · exact Or.inl (eq_of_beq h1)
    · exact Or.inr (eq_of_beq h1)
  have hbound : ∀ p ∈ List.zip (ix.drop (S.length - (bshape a.shape b.shape).length))
      (S.drop (S.length - (bshape a.shape b.shape).length)), p.1 < p.2 := by
    intro p hp
    rw [zip_drop] at hp
    exact zip_lt_of_mem_allIndices hmem p (List.mem_of_mem_drop hp)
  have hlendropS : (S.drop (S.length - (bshape a.shape b.shape).length)).length
      = (bshape a.shape b.shape).length := by
    rw [List.length_drop]
    omega
  have hlenjx : (ix.drop (S.length - (bshape a.shape b.shape).length)).length
      = (bshape a.shape b.shape).length := by
    rw [List.length_drop]
    omega
  have hjx2 : bIndex (bshape a.shape b.shape)
      (ix.drop (S.length - (bshape a.shape b.shape).length))
      ∈ allIndices (bshape a.shape b.shape) :=
    bIndex_mem hcompat hbound hlendropS.symm (hlenjx.trans hlendropS.symm)
  rw [tGet_drop2 (bmulTensors a b) S.length (bshape a.shape b.shape).length ix
      (Nat.le_refl _) hle hlenix,
    tGet_drop2 a S.length (bshape a.shape b.shape).length ix hLa hle hlenix,
    tGet_drop2 b S.length (bshape a.shape b.shape).length ix hLb hle hlenix]
  have hcond_a : ∀ p ∈ List.zip (padOnes a.shape (bshape a.shape b.shape).length)
      (bshape a.shape b.shape), p.2 = 1 → p.1 = 1 := by
    rw [bshape_length]
    exact zip_left_zipWith_max (padOnes_pos hpa _)
  have hcond_b : ∀ p ∈ List.zip (padOnes b.shape (bshape a.shape b.shape).length)
      (bshape a.shape b.shape), p.2 = 1 → p.1 = 1 := by
    rw [bshape_length]
    exact zip_right_zipWith_max (padOnes_pos hpb _)
  have ebm : tGet (bmulTensors a b) (bshape a.shape b.shape).length
      (ix.drop (S.length - (bshape a.shape b.shape).length))
      = tGet (bmulTensors a b) (bshape a.shape b.shape).length
        (bIndex (bshape a.shape b.shape)
          (ix.drop (S.length - (bshape a.shape b.shape).length))) := by
    apply tGet_eq_of_bIndex_eq
    show bIndex (padOnes (bshape a.shape b.shape) (bshape a.shape b.shape).length) _
        = bIndex (padOnes (bshape a.shape b.shape) (bshape a.shape b.shape).length) _
    rw [padOnes_len_self]
    exact (bIndex_of_mem hjx2).symm
  have ea : tGet a (bshape a.shape b.shape).length
      (ix.drop (S.length - (bshape a.shape b.shape).length))
      = tGet a (bshape a.shape b.shape).length
        (bIndex (bshape a.shape b.shape)
          (ix.drop (S.length - (bshape a.shape b.shape).length))) := by
    apply tGet_eq_of_bIndex_eq
    exact (bIndex_bIndex (padOnes_length _ _ hLa) hcond_a).symm
  have eb : tGet b (bshape a.shape b.shape).length
      (ix.drop (S.length - (bshape a.shape b.shape).length))
      = tGet b (bshape a.shape b.shape).length
        (bIndex (bshape a.shape b.shape)
          (ix.drop (S.length - (bshape a.shape b.shape).length))) := by
    apply tGet_eq_of_bIndex_eq
    exact (bIndex_bIndex (padOnes_length _ _ hLb) hcond_b).symm
  rw [ebm, ea, eb]
  exact tGet_bmul_mem a b _ hjx2

theorem fakeQuantize_scale (L : Nat) (x il ih ol oh s : ℚ) :
    fakeQuantize L x il ih (ol * s) (oh * s) = fakeQuantize L x il ih ol oh * s := by
  unfold fakeQuantize
  by_cases h1 : x ≤ min il ih
  · rw [if_pos h1, if_pos h1]
  · rw [if_neg h1, if_neg h1]
    by_cases h2 : max il ih < x
    · rw [if_pos h2, if_pos h2]
    · rw [if_neg h2, if_neg h2]
      ring

/-- C3: soundness of the fusion.  At every index of an output shape that both
fused range tensors broadcast into, the element of
FakeQuantize(data, in_low, in_high, out_low*scale, out_high*scale) equals the
element of Multiply(FakeQuantize(data, in_low, in_high, out_low, out_high),
scale), for arbitrary tensors (so in particular for every input on which the
rewrite is accepted) and for broadcasted scale shapes. -/
theorem claim_C3_soundness (L : Nat) (d il ih ol oh s : TensorValue)
    (S ix : List Nat)
    (hmem : ix ∈ allIndices S)
    (hpol : allPos ol.shape = true) (hpoh : allPos oh.shape = true)
    (hps : allPos s.shape = true)
    (hbl : broadcastsTo (bshape ol.shape s.shape) S = true)
    (hbh : broadcastsTo (bshape oh.shape s.shape) S = true) :
    fakeQuantize L (tGet d S.length ix) (tGet il S.length ix) (tGet ih S.length ix)
        (tGet (bmulTensors ol s) S.length ix) (tGet (bmulTensors oh s) S.length ix)
      = fakeQuantize L (tGet d S.length ix) (tGet il S.length ix) (tGet ih S.length ix)
          (tGet ol S.length ix) (tGet oh S.length ix) * tGet s S.length ix := by
  rw [tGet_bmul_gen ol s S ix hpol hps hmem hbl,
    tGet_bmul_gen oh s S ix hpoh hps hmem hbh]
  exact fakeQuantize_scale L _ _ _ _ _ _

/-- Witness for the fusion soundness at a concrete index and concrete tensors:
data of shape [2], scalar ranges, scale of shape [1], levels 2, index [1]. -/
theorem claim_C3_soundness_witness :
    ([1] : List Nat) ∈ allIndices [2] ∧
    allPos wOutLowT.shape = true ∧
    allPos wOutHighT.shape = true ∧
    allPos wScaleT.shape = true ∧
    broadcastsTo (bshape wOutLowT.shape wScaleT.shape) [2] = true ∧
    broadcastsTo (bshape wOutHighT.shape wScaleT.shape) [2] = true ∧
    (fakeQuantize 2 (tGet ⟨ElemType.f32, [2], [5, 7]⟩ ([2] : List Nat).length [1])
        (tGet ⟨ElemType.f32, [1], [0]⟩ ([2] : List Nat).length [1])
        (tGet ⟨ElemType.f32, [1], [10]⟩ ([2] : List Nat).length [1])
        (tGet (bmulTensors wOutLowT wScaleT) ([2] : List Nat).length [1])
        (tGet (bmulTensors wOutHighT wScaleT) ([2] : List Nat).length [1])
      = fakeQuantize 2 (tGet ⟨ElemType.f32, [2], [5, 7]⟩ ([2] : List Nat).length [1])
          (tGet ⟨ElemType.f32, [1], [0]⟩ ([2] : List Nat).length [1])
          (tGet ⟨ElemType.f32, [1], [10]⟩ ([2] : List Nat).length [1])
          (tGet wOutLowT ([2] : List Nat).length [1])
          (tGet wOutHighT ([2] : List Nat).length [1])
        * tGet wScaleT ([2] : List Nat).length [1]) :=
  ⟨by decide, by decide, by decide, by decide, by decide, by decide,
   claim_C3_soundness 2 ⟨ElemType.f32, [2], [5, 7]⟩ ⟨ElemType.f32, [1], [0]⟩
     ⟨ElemType.f32, [1], [10]⟩ wOutLowT wOutHighT wScaleT [2] [1]
     (by decide) (by decide) (by decide) (by decide) (by decide) (by decide)⟩

end FQMF
